import Mathlib

/-!
# dynamic-tensor-c: a shallow embedding of `src/main.c`

The C program keeps a flat tensor in one of three storage formats (binary32,
a 16-bit half-float encoding, signed 8-bit quantised codes) and converts
between them.

Conventions of the embedding.

* A C `float` is carried as its IEEE-754 binary32 bit pattern, a `Nat` below
  `2 ^ 32`; the codec functions work on that pattern exactly as the C code does
  after its pointer cast.  Arithmetic on floats (`/`, `*`, `<`, unary minus,
  conversions from and to `int`) is binary32 arithmetic with round to nearest,
  ties to even, evaluated in single precision (`FLT_EVAL_METHOD == 0`), and is
  defined on the bit patterns below; `f32_div_correct` and `f32_mul_correct`
  relate it to exact rational arithmetic.  An invalid operation yields one
  fixed quiet NaN: sign and payload of NaN results are not tracked.
* Unsigned machine arithmetic is arithmetic on `Nat` followed by `% 2 ^ w`;
  signed machine integers are `Int`.  The left shift `(h & 0x8000) << 16` in
  `f16_to_f32` is taken modulo `2 ^ 32`, as every two's complement compiler
  does.
* A conversion `(int32_t) x` of a float whose truncated value does not fit in
  32 bits (or of a NaN or an infinity) has no defined result in C; the
  embedding reports it as `Fault.undefinedConversion`.
* Pointers are not modelled: the functions are embedded for non-null
  arguments, a buffer is a list, and an access past its end is
  `Fault.outOfBounds`.
-/

namespace DynTensor

set_option maxRecDepth 100000

/-! ## Bit-field helpers -/

/-- Reinterpretation of a 32-bit unsigned pattern as a two's complement `int32_t`. -/
def toInt32 (u : Nat) : Int :=
  if u % 2 ^ 32 < 2 ^ 31 then ((u % 2 ^ 32 : Nat) : Int) else ((u % 2 ^ 32 : Nat) : Int) - 2 ^ 32

/-- Sign bit of a binary32 pattern. -/
def f32_sign (b : Nat) : Nat := b / 2 ^ 31 % 2

/-- Biased exponent field (8 bits) of a binary32 pattern. -/
def f32_exp (b : Nat) : Nat := b / 2 ^ 23 % 256

/-- Mantissa field (23 bits) of a binary32 pattern. -/
def f32_mant (b : Nat) : Nat := b % 2 ^ 23

/-- Magnitude of a finite binary32 pattern, counted in units of `2 ^ (-149)`
(the spacing of the subnormals), so that it is a natural number. -/
def f32_mag (b : Nat) : Nat :=
  if f32_exp b = 0 then f32_mant b else (2 ^ 23 + f32_mant b) * 2 ^ (f32_exp b - 1)

/-- Signed value of a finite binary32 pattern in units of `2 ^ (-149)`. -/
def f32_scaled (b : Nat) : Int :=
  if f32_sign b = 1 then -(f32_mag b : Int) else (f32_mag b : Int)

/-- The rational number a finite binary32 pattern denotes. -/
def f32_toRat (b : Nat) : ℚ := (f32_scaled b : ℚ) / 2 ^ 149

/-- The pattern is a NaN. -/
def f32_isNaN (b : Nat) : Bool := f32_exp b == 255 && f32_mant b != 0

/-- The pattern is an infinity. -/
def f32_isInf (b : Nat) : Bool := f32_exp b == 255 && f32_mant b == 0

/-- The pattern is neither an infinity nor a NaN. -/
def f32_isFinite (b : Nat) : Bool := f32_exp b != 255

/-- Sign bit of a 16-bit half pattern. -/
def f16_sign (h : Nat) : Nat := h / 2 ^ 15 % 2

/-- Exponent field (5 bits) of a 16-bit half pattern. -/
def f16_exp (h : Nat) : Nat := h / 2 ^ 10 % 32

/-- Mantissa field (10 bits) of a 16-bit half pattern. -/
def f16_mant (h : Nat) : Nat := h % 2 ^ 10

/-! ## Float16 codec (`f32_to_f16`, `f16_to_f32`) -/

/-- Embedding of `f32_to_f16`: `bits` is the pattern read through the pointer
cast, `exp` is computed in `uint32_t` (`- 127 + 15` wraps) and then stored in
an `int32_t`; the returned value is narrowed to `uint16_t`. -/
def f32_to_f16 (value : Nat) : Nat :=
  let bits := value % 2 ^ 32
  let sign := (bits >>> 16) &&& 0x8000
  let mant := bits &&& 0x7FFFFF
  let exp : Int := toInt32 (((((bits >>> 23) &&& 0xFF) + (2 ^ 32 - 127)) % 2 ^ 32 + 15) % 2 ^ 32)
  if exp ≤ 0 then sign % 2 ^ 16
  else if exp ≥ 31 then (sign ||| 0x7C00) % 2 ^ 16
  else (sign ||| (exp.toNat <<< 10) ||| (mant >>> 13)) % 2 ^ 16

/-- Embedding of `f16_to_f32`: the three fields are unpacked into `uint32_t`
variables, the exponent is rebiased when it is not zero, and the reassembled
pattern is returned as the float it denotes. -/
def f16_to_f32 (h : Nat) : Nat :=
  let h := h % 2 ^ 16
  let sign := ((h &&& 0x8000) <<< 16) % 2 ^ 32
  let exp := (h &&& 0x7C00) >>> 10
  let mant := h &&& 0x03FF
  let exp := if exp ≠ 0 then ((exp + (2 ^ 32 - 15)) % 2 ^ 32 + 127) % 2 ^ 32 else exp
  sign ||| ((exp <<< 23) % 2 ^ 32) ||| ((mant <<< 13) % 2 ^ 32)

/-! ## Binary32 arithmetic -/

/-- Floor of the base-2 logarithm (`0` at `0`), by halving at most `fuel` times. -/
def ilog2 : Nat → Nat → Nat
  | 0, _ => 0
  | fuel + 1, n => if n < 2 then 0 else ilog2 fuel (n / 2) + 1

/-- Round to nearest, ties to even: the binary32 pattern (sign bit clear) of the
float nearest to the non-negative rational `N / D` counted in units of
`2 ^ (-149)`; magnitudes that round beyond the largest finite float give the
pattern of infinity.  With `j` the exponent of the spacing `2 ^ j` of the floats
around `N / D`, the significand is `N / (D * 2 ^ j)` rounded to an integer, and
`j * 2 ^ 23 + significand` is the pattern (a carry out of the significand moves
into the exponent field). -/
def f32_round (N D : Nat) : Nat :=
  let t := N / D
  let j := ilog2 t t - 23
  let d := D * 2 ^ j
  let k := N / d
  let r := N % d
  let k := if d < 2 * r ∨ (2 * r = d ∧ k % 2 = 1) then k + 1 else k
  let bits := j * 2 ^ 23 + k
  if 0x7F800000 ≤ bits then 0x7F800000 else bits

/-- The quiet NaN produced by an invalid operation (its sign and payload are not
tracked by the embedding). -/
def f32_nan : Nat := 0x7FC00000

/-- Sign bit of a product or quotient, in place. -/
def f32_xor_sign (a b : Nat) : Nat := ((f32_sign a + f32_sign b) % 2) * 2 ^ 31

/-- Binary32 division `a / b`. -/
def f32_div (a b : Nat) : Nat :=
  if f32_isNaN a || f32_isNaN b then f32_nan
  else if f32_isInf a then (if f32_isInf b then f32_nan else f32_xor_sign a b + 0x7F800000)
  else if f32_isInf b then f32_xor_sign a b
  else if f32_mag b = 0 then (if f32_mag a = 0 then f32_nan else f32_xor_sign a b + 0x7F800000)
  else f32_xor_sign a b + f32_round (f32_mag a * 2 ^ 149) (f32_mag b)

/-- Binary32 multiplication `a * b`. -/
def f32_mul (a b : Nat) : Nat :=
  if f32_isNaN a || f32_isNaN b then f32_nan
  else if f32_isInf a then (if f32_mag b = 0 then f32_nan else f32_xor_sign a b + 0x7F800000)
  else if f32_isInf b then (if f32_mag a = 0 then f32_nan else f32_xor_sign a b + 0x7F800000)
  else f32_xor_sign a b + f32_round (f32_mag a * f32_mag b) (2 ^ 149)

/-- Binary32 comparison `a < b` (false when either operand is a NaN; the two
zeros compare equal). -/
def f32_lt (a b : Nat) : Bool :=
  !f32_isNaN a && !f32_isNaN b && decide (f32_scaled a < f32_scaled b)

/-- Unary minus: the sign bit is flipped. -/
def f32_neg (a : Nat) : Nat :=
  if f32_sign a = 1 then a - 2 ^ 31 else a + 2 ^ 31

/-- Conversion `(float) n` of a C `int`. -/
def i32_to_f32 (n : Int) : Nat :=
  (if n < 0 then 2 ^ 31 else 0) + f32_round (n.natAbs * 2 ^ 149) 1

/-- Conversion `(int32_t) x`: the value is truncated toward zero; the result is
defined only when `x` is finite and the truncated value fits in 32 bits. -/
def f32_to_i32 (a : Nat) : Option Int :=
  if f32_isFinite a then
    let q : Int := if f32_sign a = 1 then -((f32_mag a / 2 ^ 149 : Nat) : Int)
                   else ((f32_mag a / 2 ^ 149 : Nat) : Int)
    if -2 ^ 31 ≤ q ∧ q < 2 ^ 31 then some q else none
  else none

/-! ## Tensor storage -/

/-- The enum `TensorType`. -/
inductive TensorType
  | TYPE_F32
  | TYPE_F16
  | TYPE_INT8
  deriving DecidableEq

/-- The union `TensorData`: one heap buffer, reached through the member under
which it was allocated.  `f32` holds binary32 patterns, `f16` holds 16-bit half
patterns, `i8` holds signed bytes. -/
inductive TensorData
  | f32 (p : List Nat)
  | f16 (p : List Nat)
  | i8 (p : List Int)
  deriving DecidableEq

/-- The struct `DynamicTensor`. `size` is a `uint16_t`, `scale` a binary32
pattern, `zero_point` an `int8_t`. -/
structure DynamicTensor where
  type : TensorType
  size : Nat
  scale : Nat
  zero_point : Int
  data : TensorData
  deriving DecidableEq

/-- Ways in which an execution leaves the behaviour C defines. -/
inductive Fault
  | undefinedConversion
  | signedOverflow
  | outOfBounds
  | inactiveMember
  | outOfFuel
  deriving DecidableEq

/-- Number of elements of the allocated buffer. -/
def TensorData.length : TensorData → Nat
  | .f32 p => p.length
  | .f16 p => p.length
  | .i8 p => p.length

/-- The buffer is the member that `create_tensor` allocates for the type tag. -/
def TensorData.matches : TensorData → TensorType → Bool
  | .f32 _, .TYPE_F32 => true
  | .f16 _, .TYPE_F16 => true
  | .i8 _, .TYPE_INT8 => true
  | _, _ => false

/-- Every cell holds a value of its C element type. -/
def TensorData.inRange : TensorData → Bool
  | .f32 p => p.all (fun x => decide (x < 2 ^ 32))
  | .f16 p => p.all (fun x => decide (x < 2 ^ 16))
  | .i8 p => p.all (fun c => decide (-128 ≤ c ∧ c ≤ 127))

/-- Element `j` of the buffer, as an integer (`none` past its end). -/
def TensorData.cell : TensorData → Nat → Option Int
  | .f32 p, j => (p[j]?).map Int.ofNat
  | .f16 p, j => (p[j]?).map Int.ofNat
  | .i8 p, j => p[j]?

/-- Well-formed tensors: the fields hold values of their C types, the buffer
was allocated for the type tag and has `size` elements. -/
def DynamicTensor.wf (t : DynamicTensor) : Bool :=
  decide (t.size < 2 ^ 16) && decide (t.scale < 2 ^ 32) &&
    decide (-128 ≤ t.zero_point ∧ t.zero_point ≤ 127) &&
    t.data.matches t.type && decide (t.data.length = t.size) && t.data.inRange

/-- Narrowing conversion `(int8_t) q` (two's complement wrap). -/
def toInt8 (q : Int) : Int := (q + 128) % 256 - 128

/-- Embedding of `create_tensor`; `malloc` leaves the contents of the buffer
indeterminate, they are supplied by `init` (cell `i` of the fresh buffer holds
`init i` reduced to the element type). -/
def create_tensor (size : Nat) (type : TensorType) (init : Nat → Nat) : DynamicTensor :=
  let size := size % 2 ^ 16
  { type := type
    size := size
    scale := 0x3F800000
    zero_point := 0
    data :=
      if type = .TYPE_F32 then .f32 ((List.range size).map (fun i => init i % 2 ^ 32))
      else if type = .TYPE_F16 then .f16 ((List.range size).map (fun i => init i % 2 ^ 16))
      else .i8 ((List.range size).map (fun i => toInt8 (init i))) }

/-- The two statements `if (q > 127) q = 127; if (q < -128) q = -128;` that
follow each conversion to `int32_t`. -/
def clamp_q (q : Int) : Int :=
  let q := if q > 127 then 127 else q
  let q := if q < -128 then -128 else q
  q

/-! ## Accessors -/

/-- Embedding of `tensor_set` (for a non-null `t`). -/
def tensor_set (t : DynamicTensor) (idx : Nat) (val : Nat) : Except Fault DynamicTensor :=
  if idx ≥ t.size then .ok t
  else if t.type = .TYPE_F32 then
    match t.data with
    | .f32 p =>
      if idx < p.length then .ok { t with data := .f32 (p.set idx val) }
      else .error .outOfBounds
    | _ => .error .inactiveMember
  else if t.type = .TYPE_F16 then
    match t.data with
    | .f16 p =>
      if idx < p.length then .ok { t with data := .f16 (p.set idx (f32_to_f16 val)) }
      else .error .outOfBounds
    | _ => .error .inactiveMember
  else
    match f32_to_i32 (f32_div val t.scale) with
    | none => .error .undefinedConversion
    | some c =>
      let q := c + t.zero_point
      if q < -2 ^ 31 ∨ 2 ^ 31 ≤ q then .error .signedOverflow
      else
        let q := clamp_q q
        match t.data with
        | .i8 p =>
          if idx < p.length then .ok { t with data := .i8 (p.set idx (toInt8 q)) }
          else .error .outOfBounds
        | _ => .error .inactiveMember

/-- Embedding of `tensor_get` (for a non-null `t`); the literal `0` returned
for an index out of range is the float `+0.0`. -/
def tensor_get (t : DynamicTensor) (idx : Nat) : Except Fault Nat :=
  if idx ≥ t.size then .ok 0
  else if t.type = .TYPE_F32 then
    match t.data with
    | .f32 p =>
      match p[idx]? with
      | some v => .ok v
      | none => .error .outOfBounds
    | _ => .error .inactiveMember
  else if t.type = .TYPE_F16 then
    match t.data with
    | .f16 p =>
      match p[idx]? with
      | some h => .ok (f16_to_f32 h)
      | none => .error .outOfBounds
    | _ => .error .inactiveMember
  else
    match t.data with
    | .i8 p =>
      match p[idx]? with
      | some c => .ok (f32_mul (i32_to_f32 (c - t.zero_point)) t.scale)
      | none => .error .outOfBounds
    | _ => .error .inactiveMember

/-! ## Quantizer -/

/-- First loop of `quantize_f32_to_int8`: `i` is the `uint16_t` counter, `max`
the running maximum; each unit of `fuel` pays for one evaluation of the loop
condition. -/
def quantize_max_loop (p : List Nat) (size : Nat) : Nat → Nat → Nat → Except Fault Nat
  | 0, _, _ => .error .outOfFuel
  | fuel + 1, i, max =>
    if i < size then
      match p[i]? with
      | none => .error .outOfBounds
      | some v =>
        let v := if f32_lt v 0 then f32_neg v else v
        let max := if f32_lt max v then v else max
        quantize_max_loop p size fuel ((i + 1) % 2 ^ 16) max
    else .ok max

/-- Second loop of `quantize_f32_to_int8`: reads `src->data.f32[i]`, writes
`dst->data.i8[i]`. -/
def quantize_store_loop (p : List Nat) (size : Nat) (scale : Nat) :
    Nat → Nat → List Int → Except Fault (List Int)
  | 0, _, _ => .error .outOfFuel
  | fuel + 1, i, out =>
    if i < size then
      match p[i]? with
      | none => .error .outOfBounds
      | some v =>
        match f32_to_i32 (f32_div v scale) with
        | none => .error .undefinedConversion
        | some q =>
          let q := clamp_q q
          if i < out.length then
            quantize_store_loop p size scale fuel ((i + 1) % 2 ^ 16) (out.set i (toInt8 q))
          else .error .outOfBounds
    else .ok out

/-- Embedding of `quantize_f32_to_int8` (for non-null `src` and `dst`); the
result is the destination tensor, the source is only read.  The closing
`printf` is console output and is left out.  A `uint16_t` counter takes at most
`2 ^ 16` values, so `2 ^ 16 + 1` units of fuel cover every terminating run. -/
def quantize_f32_to_int8 (src dst : DynamicTensor) : Except Fault DynamicTensor :=
  if src.type ≠ .TYPE_F32 ∨ dst.type ≠ .TYPE_INT8 then .ok dst
  else
    match src.data, dst.data with
    | .f32 p, .i8 out =>
      match quantize_max_loop p src.size (2 ^ 16 + 1) 0 0 with
      | .error e => .error e
      | .ok max =>
        let scale := f32_div max 0x42FE0000
        match quantize_store_loop p src.size scale (2 ^ 16 + 1) 0 out with
        | .error e => .error e
        | .ok out => .ok { dst with scale := scale, zero_point := 0, data := .i8 out }
    | _, _ => .error .inactiveMember

/-! ## The quantizer in the words of the specification -/

/-- Absolute value of a float: the sign bit is cleared. -/
def f32_abs (v : Nat) : Nat := v % 2 ^ 31

/-- The larger of two floats (`a` unless `a < b`). -/
def f32_max (a b : Nat) : Nat := if f32_lt a b then b else a

/-- Specification: `max_abs = max(|source[i]|)` over all elements, zero if
there are none. -/
def max_abs (p : List Nat) : Nat := p.foldl (fun m v => f32_max m (f32_abs v)) 0

/-- Specification: `scale = max_abs / 127.0` (`0x42FE0000` is 127.0). -/
def quantize_scale (p : List Nat) : Nat := f32_div (max_abs p) 0x42FE0000

/-! ## Prefix of the quantizer and reachable tensors -/

/-- The destination as `quantize_f32_to_int8` has left it once the statement
`dst->zero_point = 0;` is executed, that is after the type checks, the first
loop and the two assignments, and before the second loop. -/
def quantize_assign (src dst : DynamicTensor) : Except Fault DynamicTensor :=
  if src.type ≠ .TYPE_F32 ∨ dst.type ≠ .TYPE_INT8 then .ok dst
  else
    match src.data, dst.data with
    | .f32 p, .i8 _ =>
      match quantize_max_loop p src.size (2 ^ 16 + 1) 0 0 with
      | .error e => .error e
      | .ok max => .ok { dst with scale := f32_div max 0x42FE0000, zero_point := 0 }
    | _, _ => .error .inactiveMember

/-- Tensors reached from `t0` by a sequence of completed calls: `tensor_set`
on the tensor, `quantize_f32_to_int8` with the tensor as destination (of any
source), or with the tensor as source (which only reads it). -/
inductive Reachable (t0 : DynamicTensor) : DynamicTensor → Prop
  | start : Reachable t0 t0
  | set (t t' : DynamicTensor) (idx val : Nat) :
      Reachable t0 t → tensor_set t idx val = .ok t' → Reachable t0 t'
  | quantize_dst (src t t' : DynamicTensor) :
      Reachable t0 t → quantize_f32_to_int8 src t = .ok t' → Reachable t0 t'
  | quantize_src (t dst dst' : DynamicTensor) :
      Reachable t0 t → quantize_f32_to_int8 t dst = .ok dst' → Reachable t0 t

/-! ## The quantizer in exact arithmetic

The same statements of `quantize_f32_to_int8` and of the Int8 branch of
`tensor_get`, with `float` read as the rationals: no rounding, no infinities,
division by zero undefined. -/

/-- An Int8 tensor whose scale is a rational. -/
structure ExactTensor where
  size : Nat
  scale : ℚ
  zero_point : Int
  data : List Int

/-- Conversion `(int32_t) x` of a rational: truncation toward zero, undefined
outside of the `int32_t` range. -/
def exact_to_i32 (x : ℚ) : Option Int :=
  let t : Int := if 0 ≤ x then ⌊x⌋ else ⌈x⌉
  if -2 ^ 31 ≤ t ∧ t < 2 ^ 31 then some t else none

/-- The expression `(int32_t)(v / scale)` in exact arithmetic. -/
def exact_quotient (v scale : ℚ) : Option Int :=
  if scale = 0 then none else exact_to_i32 (v / scale)

/-- First loop of `quantize_f32_to_int8` in exact arithmetic. -/
def exact_max_loop (p : List ℚ) (size : Nat) : Nat → Nat → ℚ → Except Fault ℚ
  | 0, _, _ => .error .outOfFuel
  | fuel + 1, i, max =>
    if i < size then
      match p[i]? with
      | none => .error .outOfBounds
      | some v =>
        let v := if v < 0 then -v else v
        let max := if v > max then v else max
        exact_max_loop p size fuel ((i + 1) % 2 ^ 16) max
    else .ok max

/-- Second loop of `quantize_f32_to_int8` in exact arithmetic. -/
def exact_store_loop (p : List ℚ) (size : Nat) (scale : ℚ) :
    Nat → Nat → List Int → Except Fault (List Int)
  | 0, _, _ => .error .outOfFuel
  | fuel + 1, i, out =>
    if i < size then
      match p[i]? with
      | none => .error .outOfBounds
      | some v =>
        match exact_quotient v scale with
        | none => .error .undefinedConversion
        | some q =>
          let q := clamp_q q
          if i < out.length then
            exact_store_loop p size scale fuel ((i + 1) % 2 ^ 16) (out.set i (toInt8 q))
          else .error .outOfBounds
    else .ok out

/-- The body of `quantize_f32_to_int8` after its type checks, in exact
arithmetic: `p` holds the values of the Float32 source, `size` its length. -/
def exact_quantize_f32_to_int8 (p : List ℚ) (size : Nat) (dst : ExactTensor) :
    Except Fault ExactTensor :=
  match exact_max_loop p size (2 ^ 16 + 1) 0 0 with
  | .error e => .error e
  | .ok max =>
    let scale := max / 127
    match exact_store_loop p size scale (2 ^ 16 + 1) 0 dst.data with
    | .error e => .error e
    | .ok out => .ok { dst with scale := scale, zero_point := 0, data := out }

/-- The Int8 branch of `tensor_get` in exact arithmetic. -/
def exact_tensor_get (t : ExactTensor) (idx : Nat) : Except Fault ℚ :=
  if idx ≥ t.size then .ok 0
  else
    match t.data[idx]? with
    | some c => .ok (((c - t.zero_point : Int) : ℚ) * t.scale)
    | none => .error .outOfBounds

/-- Specification: `max_abs` over rationals. -/
def exact_max_abs (p : List ℚ) : ℚ := p.foldl (fun m v => max m |v|) 0

/-! ## Lemmas on bit fields -/

theorem and_field (x a b : Nat) :
    x &&& ((2 ^ b - 1) <<< a) = (x / 2 ^ a % 2 ^ b) * 2 ^ a := by
  apply Nat.eq_of_testBit_eq
  intro i
  rw [Nat.mul_comm, Nat.testBit_mul_pow_two, ← Nat.shiftRight_eq_div_pow]
  simp only [Nat.testBit_and, Nat.testBit_shiftLeft, Nat.testBit_two_pow_sub_one,
    Nat.testBit_mod_two_pow, Nat.testBit_shiftRight]
  by_cases h : a ≤ i
  · have : a + (i - a) = i := by omega
    simp [h, this, Bool.and_comm]
  · simp [h]

theorem or_field (hi lo k : Nat) (h : lo < 2 ^ k) : (hi * 2 ^ k) ||| lo = hi * 2 ^ k + lo := by
  rw [Nat.mul_comm, Nat.mul_add_lt_is_or h]

theorem and_0x8000 (x : Nat) : x &&& 0x8000 = (x / 2 ^ 15 % 2) * 2 ^ 15 := by
  simpa using and_field x 15 1

theorem and_0x7C00 (x : Nat) : x &&& 0x7C00 = (x / 2 ^ 10 % 2 ^ 5) * 2 ^ 10 := by
  simpa using and_field x 10 5

theorem and_0x03FF (x : Nat) : x &&& 0x03FF = x % 2 ^ 10 := by
  simpa using and_field x 0 10

theorem and_0xFF (x : Nat) : x &&& 0xFF = x % 2 ^ 8 := by
  simpa using and_field x 0 8

theorem and_0x7FFFFF (x : Nat) : x &&& 0x7FFFFF = x % 2 ^ 23 := by
  simpa using and_field x 0 23

/-- Arithmetic form of `f32_to_f16` on the three fields of the input. -/
theorem f32_to_f16_fields (value : Nat) :
    f32_to_f16 value =
      if f32_exp (value % 2 ^ 32) ≤ 112 then f32_sign (value % 2 ^ 32) * 2 ^ 15
      else if 143 ≤ f32_exp (value % 2 ^ 32) then f32_sign (value % 2 ^ 32) * 2 ^ 15 + 0x7C00
      else f32_sign (value % 2 ^ 32) * 2 ^ 15 + (f32_exp (value % 2 ^ 32) - 112) * 2 ^ 10
        + f32_mant (value % 2 ^ 32) / 2 ^ 13 := by
  have hb : value % 2 ^ 32 < 2 ^ 32 := Nat.mod_lt _ (by norm_num)
  unfold f32_to_f16
  generalize value % 2 ^ 32 = b at hb
  simp only [Nat.mod_eq_of_lt hb, Nat.shiftRight_eq_div_pow, and_0x8000, and_0xFF, and_0x7FFFFF,
    Nat.shiftLeft_eq, f32_exp, f32_sign, f32_mant, toInt32]
  have hs : b / 2 ^ 16 / 2 ^ 15 % 2 = b / 2 ^ 31 % 2 := by omega
  have he : b / 2 ^ 23 % 2 ^ 8 = b / 2 ^ 23 % 256 := by norm_num
  rw [hs, he]
  generalize hsd : b / 2 ^ 31 % 2 = s
  generalize hed : b / 2 ^ 23 % 256 = e
  generalize hmd : b % 2 ^ 23 = m
  have hs2 : s < 2 := by omega
  have he2 : e < 256 := by omega
  have hm2 : m < 2 ^ 23 := by omega
  by_cases h1 : e ≤ 112
  · rw [if_pos (by split <;> omega), if_pos h1]
    omega
  · have h3 : ((e + (2 ^ 32 - 127)) % 2 ^ 32 + 15) % 2 ^ 32 = e - 112 := by omega
    have h4 : (e - 112) % 2 ^ 32 = e - 112 := by omega
    have h5 : e - 112 < 2 ^ 31 := by omega
    simp only [h3, h4, h5, h1, if_true, if_false]
    rw [if_neg (by omega)]
    by_cases h2 : 143 ≤ e
    · rw [if_pos (by omega), if_pos h2, or_field s 0x7C00 15 (by norm_num)]
      omega
    · rw [if_neg (by omega), if_neg h2]
      have h6 : ((e - 112 : Nat) : Int).toNat = e - 112 := by simp
      rw [h6]
      have h7 : s * 2 ^ 15 = (s * 2 ^ 5) * 2 ^ 10 := by ring
      have h8 : (s * 2 ^ 5) * 2 ^ 10 + (e - 112) * 2 ^ 10 = (s * 2 ^ 5 + (e - 112)) * 2 ^ 10 := by ring
      have h9 : (s * 2 ^ 5) * 2 ^ 10 ||| (e - 112) * 2 ^ 10 = (s * 2 ^ 5 + (e - 112)) * 2 ^ 10 := by
        rw [← h8, ← h7, or_field s ((e - 112) * 2 ^ 10) 15 (by omega)]
      rw [h7, h9, or_field _ (m / 2 ^ 13) 10 (by omega)]
      omega

/-- Arithmetic form of `f16_to_f32` on the three fields of the input. -/
theorem f16_to_f32_fields (h : Nat) :
    f16_to_f32 h =
      f16_sign (h % 2 ^ 16) * 2 ^ 31
        + (if f16_exp (h % 2 ^ 16) = 0 then 0 else f16_exp (h % 2 ^ 16) + 112) * 2 ^ 23
        + f16_mant (h % 2 ^ 16) * 2 ^ 13 := by
  have hb : h % 2 ^ 16 < 2 ^ 16 := Nat.mod_lt _ (by norm_num)
  unfold f16_to_f32
  generalize h % 2 ^ 16 = b at hb
  simp only [Nat.shiftRight_eq_div_pow, and_0x8000, and_0x7C00, and_0x03FF,
    Nat.shiftLeft_eq, f16_exp, f16_sign, f16_mant]
  have he : b / 2 ^ 10 % 2 ^ 5 * 2 ^ 10 / 2 ^ 10 = b / 2 ^ 10 % 32 := by omega
  rw [he]
  generalize hsd : b / 2 ^ 15 % 2 = s
  generalize hed : b / 2 ^ 10 % 32 = e
  generalize hmd : b % 2 ^ 10 = m
  have hs2 : s < 2 := by omega
  have he2 : e < 32 := by omega
  have hm2 : m < 2 ^ 10 := by omega
  have hsign : s * 2 ^ 15 * 2 ^ 16 % 2 ^ 32 = (s * 2 ^ 8) * 2 ^ 23 := by omega
  have hmant : m * 2 ^ 13 % 2 ^ 32 = m * 2 ^ 13 := by omega
  rw [hsign, hmant]
  by_cases h0 : e = 0
  · subst h0
    simp only [ne_eq, not_true_eq_false, if_false, if_true, Nat.zero_mul, Nat.zero_mod,
      Nat.or_zero]
    rw [or_field _ (m * 2 ^ 13) 23 (by omega)]
    omega
  · have h1 : ((e + (2 ^ 32 - 15)) % 2 ^ 32 + 127) % 2 ^ 32 = e + 112 := by omega
    have h2 : (e + 112) * 2 ^ 23 % 2 ^ 32 = (e + 112) * 2 ^ 23 := by omega
    simp only [ne_eq, h0, not_false_eq_true, if_true, if_false, h1, h2]
    have h3 : s * 2 ^ 8 * 2 ^ 23 = s * 2 ^ 31 := by ring
    have h4 : s * 2 ^ 31 ||| (e + 112) * 2 ^ 23 = (s * 2 ^ 8 + (e + 112)) * 2 ^ 23 := by
      rw [or_field s ((e + 112) * 2 ^ 23) 31 (by omega)]
      ring
    rw [h3, h4, or_field _ (m * 2 ^ 13) 23 (by omega)]
    omega

/-! ## Claims on the codec -/

/-- C4: a float32 that is exactly representable in half precision (a signed
zero, or exponent field in 113..142 with the low 13 mantissa bits zero) is
returned bit for bit by `f16_to_f32 (f32_to_f16 x)`; so are 0.0, 1.0, 2.0 and
0.5. -/
theorem f16_roundtrip_exact (x : Nat) (hx : x < 2 ^ 32)
    (hrep : x = 0 ∨ x = 0x80000000 ∨
      (113 ≤ f32_exp x ∧ f32_exp x ≤ 142 ∧ f32_mant x % 2 ^ 13 = 0)) :
    f16_to_f32 (f32_to_f16 x) = x ∧
      f16_to_f32 (f32_to_f16 0x00000000) = 0x00000000 ∧
      f16_to_f32 (f32_to_f16 0x3F800000) = 0x3F800000 ∧
      f16_to_f32 (f32_to_f16 0x40000000) = 0x40000000 ∧
      f16_to_f32 (f32_to_f16 0x3F000000) = 0x3F000000 := by
  refine ⟨?_, by decide, by decide, by decide, by decide⟩
  rcases hrep with h | h | ⟨h1, h2, h3⟩
  · subst h; decide
  · subst h; decide
  · rw [f16_to_f32_fields, f32_to_f16_fields]
    simp only [Nat.mod_eq_of_lt hx]
    rw [if_neg (by omega), if_neg (by omega)]
    unfold f32_exp f32_sign f32_mant f16_sign f16_exp f16_mant at *
    have hlt : x / 2 ^ 31 % 2 * 2 ^ 15 + (x / 2 ^ 23 % 256 - 112) * 2 ^ 10
        + x % 2 ^ 23 / 2 ^ 13 < 2 ^ 16 := by omega
    rw [Nat.mod_eq_of_lt hlt]
    have e1 : (x / 2 ^ 31 % 2 * 2 ^ 15 + (x / 2 ^ 23 % 256 - 112) * 2 ^ 10
        + x % 2 ^ 23 / 2 ^ 13) / 2 ^ 15 % 2 = x / 2 ^ 31 % 2 := by omega
    have e2 : (x / 2 ^ 31 % 2 * 2 ^ 15 + (x / 2 ^ 23 % 256 - 112) * 2 ^ 10
        + x % 2 ^ 23 / 2 ^ 13) / 2 ^ 10 % 32 = x / 2 ^ 23 % 256 - 112 := by omega
    have e3 : (x / 2 ^ 31 % 2 * 2 ^ 15 + (x / 2 ^ 23 % 256 - 112) * 2 ^ 10
        + x % 2 ^ 23 / 2 ^ 13) % 2 ^ 10 = x % 2 ^ 23 / 2 ^ 13 := by omega
    rw [e1, e2, e3, if_neg (by omega)]
    omega

/-- Witness for C4 at the pattern of 1.5. -/
theorem f16_roundtrip_exact_witness :
    f16_to_f32 (f32_to_f16 0x3FC00000) = 0x3FC00000 :=
  (f16_roundtrip_exact 0x3FC00000 (by decide) (Or.inr (Or.inr (by decide)))).1

/-- C6: a float32 whose exponent field is at most 112 encodes to a signed
zero, `0x0000` with a clear sign bit and `0x8000` with a set one; in particular
`f32_to_f16 0.0 = 0x0000` and `f32_to_f16 (-0.0) = 0x8000`. -/
theorem f32_to_f16_underflow (x : Nat) (hx : x < 2 ^ 32) (he : f32_exp x ≤ 112) :
    (f32_sign x = 0 → f32_to_f16 x = 0x0000) ∧
      (f32_sign x = 1 → f32_to_f16 x = 0x8000) ∧
      f32_to_f16 0x00000000 = 0x0000 ∧ f32_to_f16 0x80000000 = 0x8000 := by
  have h := f32_to_f16_fields x
  rw [Nat.mod_eq_of_lt hx, if_pos he] at h
  refine ⟨fun hs => by rw [h, hs]; norm_num, fun hs => by rw [h, hs]; norm_num, by decide, by decide⟩

/-- Witness for C6 at the largest negative float32 subnormal. -/
theorem f32_to_f16_underflow_witness :
    (f32_sign 0x807FFFFF = 0 → f32_to_f16 0x807FFFFF = 0x0000) ∧
      (f32_sign 0x807FFFFF = 1 → f32_to_f16 0x807FFFFF = 0x8000) ∧
      f32_to_f16 0x00000000 = 0x0000 ∧ f32_to_f16 0x80000000 = 0x8000 :=
  f32_to_f16_underflow 0x807FFFFF (by decide) (by decide)

/-! ## Magnitudes and exponent fields -/

theorem f32_mant_lt (x : Nat) : f32_mant x < 2 ^ 23 := by
  unfold f32_mant
  exact Nat.mod_lt _ (by norm_num)

/-- The exponent field brackets the magnitude between two powers of two. -/
theorem f32_mag_bounds (x : Nat) :
    (f32_exp x = 0 ∧ f32_mag x = f32_mant x) ∨
      (1 ≤ f32_exp x ∧ f32_mag x = (2 ^ 23 + f32_mant x) * 2 ^ (f32_exp x - 1) ∧
        2 ^ (f32_exp x + 22) ≤ f32_mag x ∧ f32_mag x < 2 ^ (f32_exp x + 23)) := by
  have hm := f32_mant_lt x
  unfold f32_mag
  by_cases h0 : f32_exp x = 0
  · left
    rw [if_pos h0]
    simp [h0]
  · right
    rw [if_neg h0]
    obtain ⟨e, he⟩ : ∃ e, f32_exp x = e + 1 := ⟨f32_exp x - 1, by omega⟩
    rw [he]
    simp only [Nat.add_sub_cancel]
    refine ⟨by omega, trivial, ?_, ?_⟩
    · have : 2 ^ (e + 1 + 22) = 2 ^ 23 * 2 ^ e := by rw [← pow_add]; congr 1; omega
      rw [this]
      exact Nat.mul_le_mul_right _ (by omega)
    · have : 2 ^ (e + 1 + 23) = 2 ^ 24 * 2 ^ e := by rw [← pow_add]; congr 1; omega
      rw [this]
      exact Nat.mul_lt_mul_of_pos_right (by omega) (by positivity)

/-- A magnitude of at least 65536 means an exponent field of at least 143. -/
theorem f32_exp_ge_143 (x : Nat) (h : 65536 * 2 ^ 149 ≤ f32_mag x) : 143 ≤ f32_exp x := by
  rcases f32_mag_bounds x with ⟨_, hm⟩ | ⟨_, _, _, hu⟩
  · have := f32_mant_lt x
    rw [hm] at h
    norm_num at h this
    omega
  · by_contra hcon
    have h1 : 2 ^ (f32_exp x + 23) ≤ 2 ^ 165 := Nat.pow_le_pow_right (by norm_num) (by omega)
    have h2 : (65536 : Nat) * 2 ^ 149 = 2 ^ 165 := by norm_num
    omega

/-- A magnitude strictly between 65504 and 65536 means exponent field 142 and
all ten leading mantissa bits set. -/
theorem f32_fields_top_binade (x : Nat) (hlo : 65504 * 2 ^ 149 < f32_mag x)
    (hhi : f32_mag x < 65536 * 2 ^ 149) :
    f32_exp x = 142 ∧ f32_mant x / 2 ^ 13 = 1023 := by
  have hmant := f32_mant_lt x
  rcases f32_mag_bounds x with ⟨_, hm⟩ | ⟨h1, hm, hl, hu⟩
  · rw [hm] at hlo
    norm_num at hlo hmant
    omega
  · have he : f32_exp x = 142 := by
      have h2 : (65536 : Nat) * 2 ^ 149 = 2 ^ 165 := by norm_num
      have h3 : (65504 : Nat) * 2 ^ 149 ≥ 2 ^ 164 := by norm_num
      by_contra hcon
      rcases Nat.lt_or_gt_of_ne hcon with hlt | hgt
      · have : 2 ^ (f32_exp x + 23) ≤ 2 ^ 164 := Nat.pow_le_pow_right (by norm_num) (by omega)
        omega
      · have : 2 ^ 165 ≤ 2 ^ (f32_exp x + 22) := Nat.pow_le_pow_right (by norm_num) (by omega)
        omega
    refine ⟨he, ?_⟩
    rw [hm, he] at hlo
    have h4 : (65504 : Nat) * 2 ^ 149 = 16769024 * 2 ^ (142 - 1) := by norm_num
    rw [h4] at hlo
    have h5 := Nat.lt_of_mul_lt_mul_right hlo
    omega

theorem f32_toRat_eq (x : Nat) :
    f32_toRat x = (if f32_sign x = 1 then -(f32_mag x : ℚ) else (f32_mag x : ℚ)) / 2 ^ 149 := by
  unfold f32_toRat f32_scaled
  split <;> simp

theorem f32_toRat_abs (x : Nat) : |f32_toRat x| = (f32_mag x : ℚ) / 2 ^ 149 := by
  rw [f32_toRat_eq, abs_div, abs_of_pos (by positivity : (0 : ℚ) < 2 ^ 149)]
  split
  · rw [abs_neg, abs_of_nonneg (by positivity)]
  · rw [abs_of_nonneg (by positivity)]

theorem f32_sign_lt_two (x : Nat) : f32_sign x = 0 ∨ f32_sign x = 1 := by
  unfold f32_sign
  omega

theorem f32_toRat_pos (x : Nat) (h : 0 < f32_toRat x) : f32_sign x = 0 := by
  rcases f32_sign_lt_two x with h0 | h1
  · exact h0
  · rw [f32_toRat_eq, if_pos h1] at h
    have : (0 : ℚ) ≤ (f32_mag x : ℚ) := by positivity
    have h2 : -(f32_mag x : ℚ) / 2 ^ 149 ≤ 0 :=
      div_nonpos_of_nonpos_of_nonneg (by linarith) (by positivity)
    linarith

theorem f32_toRat_neg (x : Nat) (h : f32_toRat x < 0) : f32_sign x = 1 := by
  rcases f32_sign_lt_two x with h0 | h1
  · rw [f32_toRat_eq, if_neg (by omega)] at h
    have h2 : (0 : ℚ) ≤ (f32_mag x : ℚ) / 2 ^ 149 := by positivity
    linarith
  · exact h1

/-- From a bound on `|f32_toRat x|` to a bound on the magnitude in units. -/
theorem f32_mag_of_abs_le (x c : Nat) (h : (c : ℚ) ≤ |f32_toRat x|) : c * 2 ^ 149 ≤ f32_mag x := by
  rw [f32_toRat_abs, le_div_iff₀ (by positivity)] at h
  exact_mod_cast h

theorem f32_mag_of_abs_lt (x c : Nat) (h : (c : ℚ) < |f32_toRat x|) : c * 2 ^ 149 < f32_mag x := by
  rw [f32_toRat_abs, lt_div_iff₀ (by positivity)] at h
  exact_mod_cast h

theorem f32_mag_of_lt_abs (x c : Nat) (h : |f32_toRat x| < (c : ℚ)) : f32_mag x < c * 2 ^ 149 := by
  rw [f32_toRat_abs, div_lt_iff₀ (by positivity)] at h
  exact_mod_cast h

/-! ## Saturation of the encoder -/

/-- C5, refuted as stated: 65520.0 (pattern `0x477FF000`) is finite and larger
than 65504, and `f32_to_f16` returns `0x7BFF` (65504), not the infinity
pattern `0x7C00`; hence the claim fails. -/
theorem f32_to_f16_saturation_counterexample :
    f32_isFinite 0x477FF000 = true ∧ f32_toRat 0x477FF000 = 65520 ∧
      f32_to_f16 0x477FF000 = 0x7BFF ∧
      ¬ (∀ x : Nat, x < 2 ^ 32 → f32_isFinite x = true → (65504 : ℚ) < |f32_toRat x| →
        (0 < f32_toRat x → f32_to_f16 x = 0x7C00) ∧
        (f32_toRat x < 0 → f32_to_f16 x = 0xFC00)) := by
  have hv : f32_toRat 0x477FF000 = 65520 := by
    have hs : f32_scaled 0x477FF000 = 65520 * 2 ^ 149 := by decide
    unfold f32_toRat
    rw [hs]
    norm_num
  refine ⟨by decide, hv, by decide, ?_⟩
  intro h
  have h1 := (h 0x477FF000 (by decide) (by decide) (by rw [hv]; norm_num)).1 (by rw [hv]; norm_num)
  revert h1
  decide

/-- C5, amended: a finite float32 of magnitude at least 65536 encodes to the
signed infinity pattern (`0x7C00` if positive, `0xFC00` if negative); a
magnitude above 65504 and below 65536 is truncated to the largest finite half,
`0x7BFF` or `0xFBFF`. -/
theorem f32_to_f16_saturation (x : Nat) (hx : x < 2 ^ 32) (_hfin : f32_isFinite x = true)
    (hmag : (65504 : ℚ) < |f32_toRat x|) :
    ((65536 : ℚ) ≤ |f32_toRat x| →
        (0 < f32_toRat x → f32_to_f16 x = 0x7C00) ∧
        (f32_toRat x < 0 → f32_to_f16 x = 0xFC00)) ∧
      (|f32_toRat x| < (65536 : ℚ) →
        (0 < f32_toRat x → f32_to_f16 x = 0x7BFF) ∧
        (f32_toRat x < 0 → f32_to_f16 x = 0xFBFF)) := by
  have hf := f32_to_f16_fields x
  rw [Nat.mod_eq_of_lt hx] at hf
  constructor
  · intro hge
    have he := f32_exp_ge_143 x (f32_mag_of_abs_le x 65536 (by exact_mod_cast hge))
    rw [if_neg (by omega), if_pos he] at hf
    exact ⟨fun hp => by rw [hf, f32_toRat_pos x hp]; norm_num,
      fun hn => by rw [hf, f32_toRat_neg x hn]; norm_num⟩
  · intro hlt
    obtain ⟨he, hm⟩ := f32_fields_top_binade x
      (f32_mag_of_abs_lt x 65504 (by exact_mod_cast hmag))
      (f32_mag_of_lt_abs x 65536 (by exact_mod_cast hlt))
    rw [if_neg (by omega), if_neg (by omega), he, hm] at hf
    exact ⟨fun hp => by rw [hf, f32_toRat_pos x hp]; norm_num,
      fun hn => by rw [hf, f32_toRat_neg x hn]; norm_num⟩

/-- Witness for the amended C5 at 65536.0 (pattern `0x47800000`). -/
theorem f32_to_f16_saturation_witness : f32_to_f16 0x47800000 = 0x7C00 := by
  have hv : f32_toRat 0x47800000 = 65536 := by
    have hs : f32_scaled 0x47800000 = 65536 * 2 ^ 149 := by decide
    unfold f32_toRat
    rw [hs]
    norm_num
  exact ((f32_to_f16_saturation 0x47800000 (by decide) (by decide)
    (by rw [hv]; norm_num)).1 (by rw [hv]; norm_num)).1 (by rw [hv]; norm_num)

/-! ## Lemmas on binary32 rounding -/

theorem ilog2_spec (fuel n : Nat) (hf : n ≤ fuel) (hn : 1 ≤ n) :
    2 ^ ilog2 fuel n ≤ n ∧ n < 2 ^ (ilog2 fuel n + 1) := by
  induction fuel generalizing n with
  | zero => omega
  | succ f ih =>
    unfold ilog2
    by_cases h2 : n < 2
    · rw [if_pos h2]
      constructor <;> simp <;> omega
    · rw [if_neg h2]
      have := ih (n / 2) (by omega) (by omega)
      rw [pow_succ, pow_succ]
      omega

theorem ilog2_zero (fuel : Nat) : ilog2 fuel 0 = 0 := by
  cases fuel <;> simp [ilog2]

/-- Exponent of the spacing chosen by `f32_round` for the quotient `t`. -/
theorem round_exp_spec (t : Nat) :
    (ilog2 t t - 23 = 0 ∧ t < 2 ^ 24) ∨
      (0 < ilog2 t t - 23 ∧ 2 ^ (ilog2 t t - 23) * 2 ^ 23 ≤ t ∧
        t < 2 ^ (ilog2 t t - 23) * 2 ^ 24) := by
  rcases Nat.eq_zero_or_pos t with h | h
  · subst h
    left
    simp [ilog2_zero]
  · obtain ⟨h1, h2⟩ := ilog2_spec t t le_rfl h
    generalize ilog2 t t = L at h1 h2
    by_cases hL : L ≤ 23
    · left
      refine ⟨by omega, lt_of_lt_of_le h2 (Nat.pow_le_pow_right (by norm_num) (by omega))⟩
    · right
      have e : L = (L - 23) + 23 := by omega
      refine ⟨by omega, ?_, ?_⟩
      · rw [← pow_add, ← e]
        exact h1
      · rw [← pow_add]
        have : L - 23 + 24 = L + 1 := by omega
        rw [this]
        exact h2

/-- What `f32_round` computes: a spacing exponent `j` and a significand `k`
with `k * 2 ^ j` within half a spacing of `N / D`. -/
theorem f32_round_spec (N D : Nat) (hD : 0 < D) :
    ∃ j k : Nat,
      f32_round N D = (if 0x7F800000 ≤ j * 2 ^ 23 + k then 0x7F800000 else j * 2 ^ 23 + k) ∧
      k ≤ 2 ^ 24 ∧ (0 < j → 2 ^ 23 ≤ k) ∧
      2 * (k * (D * 2 ^ j)) ≤ 2 * N + D * 2 ^ j ∧
      2 * N ≤ 2 * (k * (D * 2 ^ j)) + D * 2 ^ j ∧
      (j = 0 ∨ D * 2 ^ j * 2 ^ 23 ≤ N) ∧
      (D * 2 ^ j ∣ N → k * (D * 2 ^ j) = N) := by
  have hj := round_exp_spec (N / D)
  refine ⟨ilog2 (N / D) (N / D) - 23, _, rfl, ?_⟩
  generalize ilog2 (N / D) (N / D) - 23 = j at hj
  have hd : 0 < D * 2 ^ j := Nat.mul_pos hD (by positivity)
  have hdiv : N / (D * 2 ^ j) = N / D / 2 ^ j := by rw [Nat.div_div_eq_div_mul]
  have hN := Nat.div_add_mod N (D * 2 ^ j)
  have hr := Nat.mod_lt N hd
  generalize hdd : D * 2 ^ j = d at *
  generalize hk : N / d = k at *
  generalize hrr : N % d = r at *
  have hkd : d * k + r = N := hN
  -- bounds on the truncated significand
  have hk24 : k < 2 ^ 24 := by
    rcases hj with ⟨h0, ht⟩ | ⟨_, _, ht⟩
    · rw [hdiv, h0]
      simpa using ht
    · rw [hdiv]
      exact (Nat.div_lt_iff_lt_mul (by positivity)).2 (by rw [Nat.mul_comm]; exact ht)
  have hk23 : 0 < j → 2 ^ 23 ≤ k := by
    intro hpos
    rcases hj with ⟨h0, _⟩ | ⟨_, ht, _⟩
    · omega
    · rw [hdiv]
      exact (Nat.le_div_iff_mul_le (by positivity)).2 (by rw [Nat.mul_comm]; exact ht)
  have hbig : j = 0 ∨ d * 2 ^ 23 ≤ N := by
    rcases hj with ⟨h0, _⟩ | ⟨_, ht, _⟩
    · exact Or.inl h0
    · right
      have h1 := (Nat.le_div_iff_mul_le hD).1 ht
      calc d * 2 ^ 23 = 2 ^ j * 2 ^ 23 * D := by rw [← hdd]; ring
        _ ≤ N := h1
  have hmul : k * d = d * k := Nat.mul_comm _ _
  by_cases hup : d < 2 * r ∨ (2 * r = d ∧ k % 2 = 1)
  · simp only [hup, if_true]
    refine ⟨by omega, fun h => by have := hk23 h; omega, ?_, ?_, hbig, ?_⟩
    · rw [Nat.add_mul, hmul]; omega
    · rw [Nat.add_mul, hmul]; omega
    · intro hdvd
      have : r = 0 := by
        rw [← hrr]
        exact Nat.mod_eq_zero_of_dvd hdvd
      omega
  · simp only [hup, if_false]
    refine ⟨by omega, hk23, ?_, ?_, hbig, ?_⟩
    · rw [hmul]; omega
    · rw [hmul]; omega
    · intro hdvd
      have : r = 0 := by
        rw [← hrr]
        exact Nat.mod_eq_zero_of_dvd hdvd
      rw [hmul]; omega

/-- Reading back a pattern assembled as `j * 2 ^ 23 + k`. -/
theorem f32_decode (j k : Nat) (hk : k ≤ 2 ^ 24) (hj : 0 < j → 2 ^ 23 ≤ k)
    (hb : j * 2 ^ 23 + k < 0x7F800000) :
    f32_mag (j * 2 ^ 23 + k) = k * 2 ^ j ∧ f32_exp (j * 2 ^ 23 + k) ≠ 255 ∧
      f32_sign (j * 2 ^ 23 + k) = 0 ∧ j * 2 ^ 23 + k < 2 ^ 31 := by
  have hs : f32_sign (j * 2 ^ 23 + k) = 0 := by unfold f32_sign; omega
  have he : f32_exp (j * 2 ^ 23 + k) = j + k / 2 ^ 23 := by unfold f32_exp; omega
  have hm : f32_mant (j * 2 ^ 23 + k) = k % 2 ^ 23 := by unfold f32_mant; omega
  refine ⟨?_, by rw [he]; omega, hs, by omega⟩
  unfold f32_mag
  rw [he, hm]
  rcases Nat.eq_zero_or_pos j with h0 | hpos
  · subst h0
    by_cases h1 : k < 2 ^ 23
    · rw [if_pos (by omega)]
      simp
      omega
    · rw [if_neg (by omega)]
      by_cases h2 : k = 2 ^ 24
      · subst h2
        norm_num
      · have e1 : 0 + k / 2 ^ 23 - 1 = 0 := by omega
        rw [e1]
        simp
        omega
  · have := hj hpos
    rw [if_neg (by omega)]
    by_cases h2 : k = 2 ^ 24
    · subst h2
      have e1 : j + 2 ^ 24 / 2 ^ 23 - 1 = j + 1 := by omega
      rw [e1, pow_succ]
      norm_num
      ring
    · have e1 : j + k / 2 ^ 23 - 1 = j := by omega
      have e2 : 2 ^ 23 + k % 2 ^ 23 = k := by omega
      rw [e1, e2]

/-- A quotient that does not exceed the largest finite binary32 magnitude,
`(2 ^ 24 - 1) * 2 ^ 253` in units of `2 ^ (-149)`, rounds to a finite float. -/
theorem f32_round_finite (N D : Nat) (hD : 0 < D)
    (hmax : N ≤ (2 ^ 24 - 1) * 2 ^ 253 * D) :
    f32_round N D < 0x7F800000 := by
  obtain ⟨j, k, hr, hk, hj, hu, hl, hbig, -⟩ := f32_round_spec N D hD
  rw [hr]
  have hjlt : j < 254 := by
    rcases hbig with h0 | hb
    · omega
    · by_contra hcon
      have h1 : 2 ^ 254 ≤ 2 ^ j := Nat.pow_le_pow_right (by norm_num) (by omega)
      have h2 : D * 2 ^ 254 * 2 ^ 23 ≤ D * 2 ^ j * 2 ^ 23 :=
        Nat.mul_le_mul_right _ (Nat.mul_le_mul_left _ h1)
      have h3 : D * 2 ^ 254 * 2 ^ 23 ≤ (2 ^ 24 - 1) * 2 ^ 253 * D := le_trans h2 (le_trans hb hmax)
      have h4 : D * 2 ^ 254 * 2 ^ 23 = (2 ^ 24) * 2 ^ 253 * D := by ring
      rw [h4] at h3
      have h5 := Nat.le_of_mul_le_mul_right h3 hD
      norm_num at h5
  have key : j * 2 ^ 23 + k < 0x7F800000 := by
    by_cases h253 : j = 253
    · subst h253
      have hk' : k ≤ 2 ^ 24 - 1 := by
        by_contra hcon
        have hk24 : k = 2 ^ 24 := by omega
        subst hk24
        have h1 : 2 * (2 ^ 24 * (D * 2 ^ 253)) ≤ 2 * ((2 ^ 24 - 1) * 2 ^ 253 * D) + D * 2 ^ 253 :=
          le_trans hu (by omega)
        have h2 : 2 * (2 ^ 24 * (D * 2 ^ 253)) = (2 ^ 25 * 2 ^ 253) * D := by ring
        have h3 : 2 * ((2 ^ 24 - 1) * 2 ^ 253 * D) + D * 2 ^ 253
            = ((2 ^ 25 - 1) * 2 ^ 253) * D := by
          norm_num
          ring
        rw [h2, h3] at h1
        have h5 := Nat.le_of_mul_le_mul_right h1 hD
        norm_num at h5
      omega
    · omega
  rw [if_neg (by omega)]
  exact key

/-- Magnitude, sign and finiteness of a correctly rounded result, with the
rounding error stated without division: either the result is within half a
unit of `N / D` (subnormal spacing), or within `2 ^ (-24)` of it relatively. -/
theorem f32_round_mag (N D : Nat) (hD : 0 < D) (hmax : N ≤ (2 ^ 24 - 1) * 2 ^ 253 * D) :
    f32_round N D < 2 ^ 31 ∧ f32_sign (f32_round N D) = 0 ∧ f32_exp (f32_round N D) ≠ 255 ∧
      ((2 * (f32_mag (f32_round N D) * D) ≤ 2 * N + D ∧
          2 * N ≤ 2 * (f32_mag (f32_round N D) * D) + D) ∨
        (2 ^ 24 * (f32_mag (f32_round N D) * D) ≤ 2 ^ 24 * N + N ∧
          2 ^ 24 * N ≤ 2 ^ 24 * (f32_mag (f32_round N D) * D) + N)) := by
  have hfin := f32_round_finite N D hD hmax
  obtain ⟨j, k, hr, hk, hj, hu, hl, hbig, -⟩ := f32_round_spec N D hD
  rw [hr] at hfin ⊢
  have hlt : j * 2 ^ 23 + k < 0x7F800000 := by
    by_contra hcon
    rw [if_pos (by omega)] at hfin
    omega
  rw [if_neg (by omega)]
  obtain ⟨hmag, hexp, hsign, hb⟩ := f32_decode j k hk hj hlt
  refine ⟨hb, hsign, hexp, ?_⟩
  rw [hmag]
  have e : k * 2 ^ j * D = k * (D * 2 ^ j) := by ring
  rw [e]
  rcases hbig with h0 | hb
  · left
    subst h0
    simp only [pow_zero, Nat.mul_one] at hu hl ⊢
    exact ⟨hu, hl⟩
  · right
    generalize D * 2 ^ j = d at *
    generalize k * d = kd at *
    omega

/-- Rounding is exact on every quotient `A * 2 ^ e` with `A < 2 ^ 24` that does
not exceed the largest float. -/
theorem f32_round_exact (A e D : Nat) (hD : 0 < D) (hA : A < 2 ^ 24)
    (hmax : A * 2 ^ e ≤ (2 ^ 24 - 1) * 2 ^ 253) :
    f32_mag (f32_round (A * 2 ^ e * D) D) = A * 2 ^ e := by
  have hmax' : A * 2 ^ e * D ≤ (2 ^ 24 - 1) * 2 ^ 253 * D := Nat.mul_le_mul_right _ hmax
  have hfin := f32_round_finite (A * 2 ^ e * D) D hD hmax'
  obtain ⟨j, k, hr, hk, hj, hu, hl, hbig, hex⟩ := f32_round_spec (A * 2 ^ e * D) D hD
  rw [hr] at hfin ⊢
  have hlt : j * 2 ^ 23 + k < 0x7F800000 := by
    by_contra hcon
    rw [if_pos (by omega)] at hfin
    omega
  rw [if_neg (by omega)]
  obtain ⟨hmag, -, -, -⟩ := f32_decode j k hk hj hlt
  rw [hmag]
  have hje : j ≤ e := by
    rcases hbig with h0 | hb
    · omega
    · by_contra hne
      have h1 : 2 ^ (e + 1) ≤ 2 ^ j := Nat.pow_le_pow_right (by norm_num) (by omega)
      have h2 : D * 2 ^ j * 2 ^ 23 = (2 ^ j * 2 ^ 23) * D := by ring
      rw [h2] at hb
      have h3 := Nat.le_of_mul_le_mul_right hb hD
      have h4 : 2 ^ (e + 1) * 2 ^ 23 ≤ 2 ^ j * 2 ^ 23 := Nat.mul_le_mul_right _ h1
      have h5 : A * 2 ^ e < 2 ^ 24 * 2 ^ e := Nat.mul_lt_mul_of_pos_right hA (by positivity)
      have h6 : 2 ^ (e + 1) * 2 ^ 23 = 2 ^ 24 * 2 ^ e := by rw [pow_succ]; ring
      omega
  have hdvd : D * 2 ^ j ∣ A * 2 ^ e * D := by
    obtain ⟨i, rfl⟩ : ∃ i, e = j + i := ⟨e - j, by omega⟩
    exact ⟨A * 2 ^ i, by rw [pow_add]; ring⟩
  have h7 := hex hdvd
  have h8 : k * (D * 2 ^ j) = k * 2 ^ j * D := by ring
  rw [h8] at h7
  exact Nat.eq_of_mul_eq_mul_right hD h7

theorem f32_sign_add (r : Nat) (hr : r < 2 ^ 31) :
    f32_sign (2 ^ 31 + r) = 1 ∧ f32_exp (2 ^ 31 + r) = f32_exp r ∧
      f32_mant (2 ^ 31 + r) = f32_mant r ∧ f32_mag (2 ^ 31 + r) = f32_mag r := by
  have h1 : f32_sign (2 ^ 31 + r) = 1 := by unfold f32_sign; omega
  have h2 : f32_exp (2 ^ 31 + r) = f32_exp r := by unfold f32_exp; omega
  have h3 : f32_mant (2 ^ 31 + r) = f32_mant r := by unfold f32_mant; omega
  refine ⟨h1, h2, h3, ?_⟩
  unfold f32_mag
  rw [h2, h3]

theorem f32_xor_sign_cases (a b : Nat) :
    (f32_xor_sign a b = 0 ∧ f32_sign a = f32_sign b) ∨
      (f32_xor_sign a b = 2 ^ 31 ∧ f32_sign a ≠ f32_sign b) := by
  unfold f32_xor_sign f32_sign
  omega

theorem f32_finite_flags (a : Nat) (h : f32_exp a ≠ 255) :
    f32_isNaN a = false ∧ f32_isInf a = false ∧ f32_isFinite a = true := by
  simp [f32_isNaN, f32_isInf, f32_isFinite, h]

/-- Sign, finiteness and magnitude of a quotient of finite floats with a
nonzero divisor, when the exact quotient does not exceed the largest float. -/
theorem f32_div_finite (a b : Nat) (ha : f32_exp a ≠ 255) (hb : f32_exp b ≠ 255)
    (hb0 : 0 < f32_mag b) (hmax : f32_mag a * 2 ^ 149 ≤ (2 ^ 24 - 1) * 2 ^ 253 * f32_mag b) :
    f32_exp (f32_div a b) ≠ 255 ∧
      f32_mag (f32_div a b) = f32_mag (f32_round (f32_mag a * 2 ^ 149) (f32_mag b)) ∧
      (f32_sign (f32_div a b) = 1 ↔ f32_sign a ≠ f32_sign b) := by
  obtain ⟨hr1, hr2, hr3, -⟩ := f32_round_mag _ _ hb0 hmax
  obtain ⟨ha1, ha2, -⟩ := f32_finite_flags a ha
  obtain ⟨hb1, hb2, -⟩ := f32_finite_flags b hb
  unfold f32_div
  simp only [ha1, hb1, ha2, hb2, Bool.or_self, Bool.false_eq_true, if_false]
  rw [if_neg (by omega)]
  rcases f32_xor_sign_cases a b with ⟨h0, hs⟩ | ⟨h1, hs⟩
  · rw [h0, Nat.zero_add]
    exact ⟨hr3, rfl, by rw [hr2]; simp [hs]⟩
  · rw [h1]
    obtain ⟨e1, e2, e3, e4⟩ := f32_sign_add _ hr1
    exact ⟨by rw [e2]; exact hr3, e4, by rw [e1]; simp [hs]⟩

/-- Sign, finiteness and magnitude of a product of finite floats, when the
exact product does not exceed the largest float. -/
theorem f32_mul_finite (a b : Nat) (ha : f32_exp a ≠ 255) (hb : f32_exp b ≠ 255)
    (hmax : f32_mag a * f32_mag b ≤ (2 ^ 24 - 1) * 2 ^ 253 * 2 ^ 149) :
    f32_exp (f32_mul a b) ≠ 255 ∧
      f32_mag (f32_mul a b) = f32_mag (f32_round (f32_mag a * f32_mag b) (2 ^ 149)) ∧
      (f32_sign (f32_mul a b) = 1 ↔ f32_sign a ≠ f32_sign b) := by
  obtain ⟨hr1, hr2, hr3, -⟩ := f32_round_mag _ _ (by positivity : 0 < 2 ^ 149) hmax
  obtain ⟨ha1, ha2, -⟩ := f32_finite_flags a ha
  obtain ⟨hb1, hb2, -⟩ := f32_finite_flags b hb
  unfold f32_mul
  simp only [ha1, hb1, ha2, hb2, Bool.or_self, Bool.false_eq_true, if_false]
  rcases f32_xor_sign_cases a b with ⟨h0, hs⟩ | ⟨h1, hs⟩
  · rw [h0, Nat.zero_add]
    exact ⟨hr3, rfl, by rw [hr2]; simp [hs]⟩
  · rw [h1]
    obtain ⟨e1, e2, e3, e4⟩ := f32_sign_add _ hr1
    exact ⟨by rw [e2]; exact hr3, e4, by rw [e1]; simp [hs]⟩

/-- The conversion `(float) n` is exact for `|n| < 2 ^ 24`. -/
theorem i32_to_f32_exact (n : Int) (hn : n.natAbs < 2 ^ 24) :
    f32_exp (i32_to_f32 n) ≠ 255 ∧ f32_mag (i32_to_f32 n) = n.natAbs * 2 ^ 149 ∧
      (f32_sign (i32_to_f32 n) = 1 ↔ n < 0) ∧ f32_scaled (i32_to_f32 n) = n * 2 ^ 149 := by
  have hmax : n.natAbs * 2 ^ 149 ≤ (2 ^ 24 - 1) * 2 ^ 253 * 1 := by
    have : n.natAbs * 2 ^ 149 ≤ (2 ^ 24 - 1) * 2 ^ 149 := Nat.mul_le_mul_right _ (by omega)
    refine le_trans this ?_
    norm_num
  obtain ⟨hr1, hr2, hr3, -⟩ := f32_round_mag _ 1 (by norm_num) hmax
  have hmag : f32_mag (f32_round (n.natAbs * 2 ^ 149) 1) = n.natAbs * 2 ^ 149 := by
    have h := f32_round_exact n.natAbs 149 1 (by norm_num) hn (by
      have : n.natAbs * 2 ^ 149 ≤ (2 ^ 24 - 1) * 2 ^ 149 := Nat.mul_le_mul_right _ (by omega)
      refine le_trans this ?_
      norm_num)
    simpa using h
  unfold i32_to_f32 f32_scaled
  by_cases hneg : n < 0
  · rw [if_pos hneg]
    obtain ⟨e1, e2, e3, e4⟩ := f32_sign_add _ hr1
    rw [e1, e2, e4, hmag]
    refine ⟨hr3, rfl, by simp [hneg], ?_⟩
    simp only [if_true]
    have habs : (n.natAbs : Int) = -n := by omega
    rw [Nat.cast_mul, habs]
    push_cast
    ring
  · rw [if_neg hneg, Nat.zero_add, hr2, hmag]
    refine ⟨hr3, rfl, by simp [hneg], ?_⟩
    simp only [show ¬ (0 : Nat) = 1 by decide, if_false]
    have habs : (n.natAbs : Int) = n := by omega
    rw [Nat.cast_mul, habs]
    push_cast
    ring

/-! ## Correct rounding of the float operations, on rationals -/

/-- Sign factor of a pattern: `-1` when the sign bit is set, `1` otherwise. -/
theorem f32_toRat_sign_mul (v : Nat) :
    f32_toRat v = (if f32_sign v = 1 then (-1 : ℚ) else 1) * ((f32_mag v : ℚ) / 2 ^ 149) := by
  rw [f32_toRat_eq]
  split <;> ring

/-- Error of `f32_round` on rationals: half a unit of `2 ^ (-149)` or a relative
error of `2 ^ (-24)`, whichever bound is larger. -/
theorem f32_round_error (N D : Nat) (hD : 0 < D) (hmax : N ≤ (2 ^ 24 - 1) * 2 ^ 253 * D) :
    |(f32_mag (f32_round N D) : ℚ) - (N : ℚ) / D| ≤ max (1 / 2) ((N : ℚ) / D / 2 ^ 24) := by
  obtain ⟨-, -, -, herr⟩ := f32_round_mag N D hD hmax
  generalize f32_mag (f32_round N D) = C at *
  have hDq : (0 : ℚ) < D := by exact_mod_cast hD
  have e : (C : ℚ) - (N : ℚ) / D = ((C : ℚ) * D - N) / D := by
    field_simp
  rw [e, abs_div, abs_of_pos hDq, div_le_iff₀ hDq]
  rcases herr with ⟨hu, hl⟩ | ⟨hu, hl⟩
  · have hu' : (2 : ℚ) * (C * D) ≤ 2 * N + D := by exact_mod_cast hu
    have hl' : (2 : ℚ) * N ≤ 2 * (C * D) + D := by exact_mod_cast hl
    refine le_trans ?_ (mul_le_mul_of_nonneg_right (le_max_left _ _) hDq.le)
    rw [abs_le]
    constructor <;> linarith
  · have hu' : (2 : ℚ) ^ 24 * (C * D) ≤ 2 ^ 24 * N + N := by exact_mod_cast hu
    have hl' : (2 : ℚ) ^ 24 * N ≤ 2 ^ 24 * (C * D) + N := by exact_mod_cast hl
    refine le_trans ?_ (mul_le_mul_of_nonneg_right (le_max_right _ _) hDq.le)
    have e2 : (N : ℚ) / D / 2 ^ 24 * D = N / 2 ^ 24 := by
      field_simp
      ring
    rw [e2, abs_le]
    constructor
    · rw [neg_le, neg_sub, sub_le_iff_le_add, div_add' _ _ _ (by positivity : (2 : ℚ) ^ 24 ≠ 0),
        le_div_iff₀ (by positivity)]
      linarith
    · rw [sub_le_iff_le_add, div_add' _ _ _ (by positivity : (2 : ℚ) ^ 24 ≠ 0),
        le_div_iff₀ (by positivity)]
      linarith

/-- `f32_div` rounds the exact quotient correctly: for finite operands, a
nonzero divisor and an exact quotient not above the largest float, the result is
finite and within `max (2 ^ (-150)) (|a / b| / 2 ^ 24)` of `a / b`. -/
theorem f32_div_correct (a b : Nat) (ha : f32_exp a ≠ 255) (hb : f32_exp b ≠ 255)
    (hb0 : 0 < f32_mag b) (hmax : f32_mag a * 2 ^ 149 ≤ (2 ^ 24 - 1) * 2 ^ 253 * f32_mag b) :
    f32_exp (f32_div a b) ≠ 255 ∧
      |f32_toRat (f32_div a b) - f32_toRat a / f32_toRat b|
        ≤ max (1 / 2 ^ 150) (|f32_toRat a / f32_toRat b| / 2 ^ 24) := by
  obtain ⟨h1, h2, h3⟩ := f32_div_finite a b ha hb hb0 hmax
  have herr := f32_round_error _ _ hb0 hmax
  rw [← h2] at herr
  refine ⟨h1, ?_⟩
  have hBq : (0 : ℚ) < (f32_mag b : ℚ) := by exact_mod_cast hb0
  have hP : (0 : ℚ) < 2 ^ 149 := by positivity
  have hquot : f32_toRat a / f32_toRat b
      = (if f32_sign (f32_div a b) = 1 then (-1 : ℚ) else 1)
        * ((f32_mag a : ℚ) / f32_mag b) := by
    rw [f32_toRat_sign_mul a, f32_toRat_sign_mul b]
    have hq : ((f32_mag a : ℚ) / 2 ^ 149) / ((f32_mag b : ℚ) / 2 ^ 149)
        = (f32_mag a : ℚ) / f32_mag b := by
      field_simp
    rcases f32_sign_lt_two a with ha0 | ha1 <;> rcases f32_sign_lt_two b with hb0' | hb1
    · have hc : ¬ f32_sign (f32_div a b) = 1 := by rw [h3, ha0, hb0']; simp
      simp only [hc, ha0, hb0', if_false, show ¬ (0 : Nat) = 1 by decide]
      rw [← hq]
      ring
    · have hc : f32_sign (f32_div a b) = 1 := by rw [h3, ha0, hb1]; simp
      simp only [hc, ha0, hb1, if_true, if_false, show ¬ (0 : Nat) = 1 by decide]
      rw [← hq]
      ring
    · have hc : f32_sign (f32_div a b) = 1 := by rw [h3, ha1, hb0']; simp
      simp only [hc, ha1, hb0', if_true, if_false, show ¬ (0 : Nat) = 1 by decide]
      rw [← hq]
      ring
    · have hc : ¬ f32_sign (f32_div a b) = 1 := by rw [h3, ha1, hb1]; simp
      simp only [hc, ha1, hb1, if_true, if_false]
      rw [← hq]
      ring
  have habs : |f32_toRat a / f32_toRat b| = (f32_mag a : ℚ) / f32_mag b := by
    rw [hquot, abs_mul, abs_of_nonneg (by positivity : (0 : ℚ) ≤ (f32_mag a : ℚ) / f32_mag b)]
    split <;> simp
  have hdiff : |f32_toRat (f32_div a b) - f32_toRat a / f32_toRat b|
      = |(f32_mag (f32_div a b) : ℚ) - ((f32_mag a * 2 ^ 149 : Nat) : ℚ) / f32_mag b| / 2 ^ 149 := by
    rw [hquot, f32_toRat_sign_mul (f32_div a b)]
    have e : ((f32_mag (f32_div a b) : ℚ) - ((f32_mag a * 2 ^ 149 : Nat) : ℚ) / f32_mag b) / 2 ^ 149
        = (f32_mag (f32_div a b) : ℚ) / 2 ^ 149 - (f32_mag a : ℚ) / f32_mag b := by
      rw [Nat.cast_mul, Nat.cast_pow, Nat.cast_ofNat]
      field_simp
      ring
    rw [← abs_of_pos hP, ← abs_div, abs_of_pos hP, e]
    split
    · rw [← abs_neg]
      congr 1
      ring
    · congr 1
      ring
  rw [hdiff, habs, div_le_iff₀ hP]
  refine le_trans herr ?_
  apply max_le
  · refine le_trans ?_ (mul_le_mul_of_nonneg_right (le_max_left _ _) hP.le)
    have : (1 : ℚ) / 2 ^ 150 * 2 ^ 149 = 1 / 2 := by norm_num
    rw [this]
  · refine le_trans ?_ (mul_le_mul_of_nonneg_right (le_max_right _ _) hP.le)
    rw [Nat.cast_mul, Nat.cast_pow, Nat.cast_ofNat]
    apply le_of_eq
    field_simp

/-- `f32_mul` rounds the exact product correctly: for finite operands whose
exact product is not above the largest float, the result is finite and within
`max (2 ^ (-150)) (|a * b| / 2 ^ 24)` of `a * b`. -/
theorem f32_mul_correct (a b : Nat) (ha : f32_exp a ≠ 255) (hb : f32_exp b ≠ 255)
    (hmax : f32_mag a * f32_mag b ≤ (2 ^ 24 - 1) * 2 ^ 253 * 2 ^ 149) :
    f32_exp (f32_mul a b) ≠ 255 ∧
      |f32_toRat (f32_mul a b) - f32_toRat a * f32_toRat b|
        ≤ max (1 / 2 ^ 150) (|f32_toRat a * f32_toRat b| / 2 ^ 24) := by
  obtain ⟨h1, h2, h3⟩ := f32_mul_finite a b ha hb hmax
  have herr := f32_round_error _ _ (by positivity : 0 < 2 ^ 149) hmax
  rw [← h2] at herr
  refine ⟨h1, ?_⟩
  have hP : (0 : ℚ) < 2 ^ 149 := by positivity
  have hprod : f32_toRat a * f32_toRat b
      = (if f32_sign (f32_mul a b) = 1 then (-1 : ℚ) else 1)
        * ((f32_mag a : ℚ) * f32_mag b / 2 ^ 149 / 2 ^ 149) := by
    rw [f32_toRat_sign_mul a, f32_toRat_sign_mul b]
    rcases f32_sign_lt_two a with ha0 | ha1 <;> rcases f32_sign_lt_two b with hb0' | hb1
    · have hc : ¬ f32_sign (f32_mul a b) = 1 := by rw [h3, ha0, hb0']; simp
      simp only [hc, ha0, hb0', if_false, show ¬ (0 : Nat) = 1 by decide]
      ring
    · have hc : f32_sign (f32_mul a b) = 1 := by rw [h3, ha0, hb1]; simp
      simp only [hc, ha0, hb1, if_true, if_false, show ¬ (0 : Nat) = 1 by decide]
      ring
    · have hc : f32_sign (f32_mul a b) = 1 := by rw [h3, ha1, hb0']; simp
      simp only [hc, ha1, hb0', if_true, if_false, show ¬ (0 : Nat) = 1 by decide]
      ring
    · have hc : ¬ f32_sign (f32_mul a b) = 1 := by rw [h3, ha1, hb1]; simp
      simp only [hc, ha1, hb1, if_true, if_false]
      ring
  have habs : |f32_toRat a * f32_toRat b| = (f32_mag a : ℚ) * f32_mag b / 2 ^ 149 / 2 ^ 149 := by
    rw [hprod, abs_mul,
      abs_of_nonneg (by positivity : (0 : ℚ) ≤ (f32_mag a : ℚ) * f32_mag b / 2 ^ 149 / 2 ^ 149)]
    split <;> simp
  have hdiff : |f32_toRat (f32_mul a b) - f32_toRat a * f32_toRat b|
      = |(f32_mag (f32_mul a b) : ℚ) - ((f32_mag a * f32_mag b : Nat) : ℚ) / ((2 ^ 149 : Nat) : ℚ)|
        / 2 ^ 149 := by
    rw [hprod, f32_toRat_sign_mul (f32_mul a b)]
    have e : ((f32_mag (f32_mul a b) : ℚ)
          - ((f32_mag a * f32_mag b : Nat) : ℚ) / ((2 ^ 149 : Nat) : ℚ)) / 2 ^ 149
        = (f32_mag (f32_mul a b) : ℚ) / 2 ^ 149
          - (f32_mag a : ℚ) * f32_mag b / 2 ^ 149 / 2 ^ 149 := by
      rw [Nat.cast_mul, Nat.cast_pow, Nat.cast_ofNat]
      ring
    rw [← abs_of_pos hP, ← abs_div, abs_of_pos hP, e]
    split
    · rw [← abs_neg]
      congr 1
      ring
    · congr 1
      ring
  rw [hdiff, habs, div_le_iff₀ hP]
  refine le_trans herr ?_
  apply max_le
  · refine le_trans ?_ (mul_le_mul_of_nonneg_right (le_max_left _ _) hP.le)
    have : (1 : ℚ) / 2 ^ 150 * 2 ^ 149 = 1 / 2 := by norm_num
    rw [this]
  · refine le_trans ?_ (mul_le_mul_of_nonneg_right (le_max_right _ _) hP.le)
    rw [Nat.cast_mul, Nat.cast_pow, Nat.cast_ofNat]
    apply le_of_eq
    field_simp
    ring

/-! ## Claims on the accessors -/

/-- C7: for a tensor of any type and an index `idx ≥ size` (also `idx = size`,
also an empty tensor) `tensor_get` returns `+0.0`, and it does so whatever the
buffer holds: no element is read. -/
theorem tensor_get_out_of_range (t : DynamicTensor) (idx : Nat) (h : t.size ≤ idx) :
    tensor_get t idx = .ok 0 ∧
      ∀ d : TensorData, tensor_get { t with data := d } idx = .ok 0 := by
  constructor
  · unfold tensor_get
    rw [if_pos h]
  · intro d
    unfold tensor_get
    rw [if_pos h]

/-- Witness for C7: index 2 of a two-element Float16 tensor. -/
theorem tensor_get_out_of_range_witness :
    tensor_get ⟨.TYPE_F16, 2, 0x3F800000, 0, .f16 [0x3C00, 0x4000]⟩ 2 = .ok 0 :=
  (tensor_get_out_of_range ⟨.TYPE_F16, 2, 0x3F800000, 0, .f16 [0x3C00, 0x4000]⟩ 2
    (by decide)).1

theorem cell_set_f32 (p : List Nat) (idx val j : Nat) (hj : j ≠ idx) :
    (TensorData.f32 (p.set idx val)).cell j = (TensorData.f32 p).cell j := by
  simp [TensorData.cell, List.getElem?_set_ne (Ne.symm hj)]

theorem cell_set_f16 (p : List Nat) (idx val j : Nat) (hj : j ≠ idx) :
    (TensorData.f16 (p.set idx val)).cell j = (TensorData.f16 p).cell j := by
  simp [TensorData.cell, List.getElem?_set_ne (Ne.symm hj)]

theorem cell_set_i8 (p : List Int) (idx : Nat) (c : Int) (j : Nat) (hj : j ≠ idx) :
    (TensorData.i8 (p.set idx c)).cell j = (TensorData.i8 p).cell j := by
  simp [TensorData.cell, List.getElem?_set_ne (Ne.symm hj)]

/-- C8: `tensor_set` changes nothing but the element at `idx`: whenever it
completes, the fields `type`, `size`, `scale`, `zero_point` and every element
at an index `j ≠ idx` are as before and the buffer keeps its length; for
`idx ≥ size` it completes and returns the tensor unchanged; on a well-formed
Float32 or Float16 tensor it always completes. -/
theorem tensor_set_frame (t : DynamicTensor) (idx val : Nat) :
    (∀ t', tensor_set t idx val = .ok t' →
        t'.type = t.type ∧ t'.size = t.size ∧ t'.scale = t.scale ∧
        t'.zero_point = t.zero_point ∧ t'.data.length = t.data.length ∧
        t'.data.matches t.type = t.data.matches t.type ∧
        ∀ j, j ≠ idx → t'.data.cell j = t.data.cell j) ∧
      (t.size ≤ idx → tensor_set t idx val = .ok t) ∧
      (t.wf = true → t.type ≠ .TYPE_INT8 → ∃ t', tensor_set t idx val = .ok t') := by
  obtain ⟨ty, sz, sc, zp, d⟩ := t
  refine ⟨?_, ?_, ?_⟩
  · intro t' h
    unfold tensor_set at h
    simp only at h
    split_ifs at h with h1 h2 h3
    · cases h
      simp
    · cases d <;> simp only at h
      · split_ifs at h
        · cases h
          exact ⟨rfl, rfl, rfl, rfl, by simp [TensorData.length], by cases ty <;> rfl,
            fun j hj => cell_set_f32 _ _ _ _ hj⟩
      all_goals cases h
    · cases d <;> simp only at h
      · cases h
      · split_ifs at h
        · cases h
          exact ⟨rfl, rfl, rfl, rfl, by simp [TensorData.length], by cases ty <;> rfl,
            fun j hj => cell_set_f16 _ _ _ _ hj⟩
      · cases h
    · split at h
      · cases h
      · split_ifs at h
        cases d <;> simp only at h
        · cases h
        · cases h
        · split_ifs at h
          cases h
          exact ⟨rfl, rfl, rfl, rfl, by simp [TensorData.length], by cases ty <;> rfl,
            fun j hj => cell_set_i8 _ _ _ _ hj⟩
  · intro h
    unfold tensor_set
    rw [if_pos h]
  · intro hwf hty
    simp only [DynamicTensor.wf, Bool.and_eq_true, decide_eq_true_eq] at hwf
    obtain ⟨⟨⟨⟨⟨h1, h2⟩, h3⟩, h4⟩, h5⟩, h6⟩ := hwf
    unfold tensor_set
    by_cases hi : idx ≥ sz
    · exact ⟨_, if_pos hi⟩
    · rw [if_neg hi]
      cases ty <;> cases d <;> simp_all [TensorData.matches, TensorData.length]

/-- Witness for C8: a store past the end of a two-element Int8 tensor. -/
theorem tensor_set_frame_witness :
    tensor_set ⟨.TYPE_INT8, 2, 0x3F800000, 0, .i8 [5, -7]⟩ 2 0x40400000
      = .ok ⟨.TYPE_INT8, 2, 0x3F800000, 0, .i8 [5, -7]⟩ :=
  (tensor_set_frame ⟨.TYPE_INT8, 2, 0x3F800000, 0, .i8 [5, -7]⟩ 2 0x40400000).2.1 (by decide)

theorem wf_fields (t : DynamicTensor) (h : t.wf = true) :
    t.size < 2 ^ 16 ∧ t.scale < 2 ^ 32 ∧ -128 ≤ t.zero_point ∧ t.zero_point ≤ 127 ∧
      t.data.matches t.type = true ∧ t.data.length = t.size ∧ t.data.inRange = true := by
  simp only [DynamicTensor.wf, Bool.and_eq_true, decide_eq_true_eq] at h
  obtain ⟨⟨⟨⟨⟨h1, h2⟩, h3⟩, h4⟩, h5⟩, h6⟩ := h
  exact ⟨h1, h2, h3.1, h3.2, h4, h5, h6⟩

theorem wf_f32 (t : DynamicTensor) (h : t.wf = true) (hty : t.type = .TYPE_F32) :
    ∃ p, t.data = .f32 p ∧ p.length = t.size := by
  obtain ⟨-, -, -, -, hm, hl, -⟩ := wf_fields t h
  rw [hty] at hm
  cases hd : t.data with
  | f32 p => exact ⟨p, rfl, by rw [hd] at hl; exact hl⟩
  | f16 p => rw [hd] at hm; simp [TensorData.matches] at hm
  | i8 p => rw [hd] at hm; simp [TensorData.matches] at hm

theorem wf_f16 (t : DynamicTensor) (h : t.wf = true) (hty : t.type = .TYPE_F16) :
    ∃ p, t.data = .f16 p ∧ p.length = t.size := by
  obtain ⟨-, -, -, -, hm, hl, -⟩ := wf_fields t h
  rw [hty] at hm
  cases hd : t.data with
  | f32 p => rw [hd] at hm; simp [TensorData.matches] at hm
  | f16 p => exact ⟨p, rfl, by rw [hd] at hl; exact hl⟩
  | i8 p => rw [hd] at hm; simp [TensorData.matches] at hm

theorem wf_i8 (t : DynamicTensor) (h : t.wf = true) (hty : t.type = .TYPE_INT8) :
    ∃ p, t.data = .i8 p ∧ p.length = t.size ∧ ∀ c ∈ p, -128 ≤ c ∧ c ≤ 127 := by
  obtain ⟨-, -, -, -, hm, hl, hr⟩ := wf_fields t h
  rw [hty] at hm
  cases hd : t.data with
  | f32 p => rw [hd] at hm; simp [TensorData.matches] at hm
  | f16 p => rw [hd] at hm; simp [TensorData.matches] at hm
  | i8 p =>
    refine ⟨p, rfl, by rw [hd] at hl; exact hl, ?_⟩
    rw [hd] at hr
    simpa [TensorData.inRange] using hr

/-- C9: on a Float32 tensor `tensor_get` after `tensor_set` at an index in
range returns the value that was set, bit for bit; on a Float16 tensor it
returns `f16_to_f32 (f32_to_f16 v)`. -/
theorem tensor_set_get_float (t : DynamicTensor) (idx v : Nat) (hwf : t.wf = true)
    (hi : idx < t.size) :
    (t.type = .TYPE_F32 →
        ∃ t', tensor_set t idx v = .ok t' ∧ tensor_get t' idx = .ok v) ∧
      (t.type = .TYPE_F16 →
        ∃ t', tensor_set t idx v = .ok t' ∧
          tensor_get t' idx = .ok (f16_to_f32 (f32_to_f16 v))) := by
  constructor
  · intro hty
    obtain ⟨p, hd, hl⟩ := wf_f32 t hwf hty
    refine ⟨{ t with data := .f32 (p.set idx v) }, ?_, ?_⟩
    · unfold tensor_set
      rw [if_neg (by omega), if_pos hty, hd]
      simp only
      rw [if_pos (by omega)]
    · unfold tensor_get
      simp only
      rw [if_neg (by omega), if_pos hty]
      simp [List.getElem?_set_self, hl, hi]
  · intro hty
    obtain ⟨p, hd, hl⟩ := wf_f16 t hwf hty
    have hne : t.type ≠ .TYPE_F32 := by rw [hty]; decide
    refine ⟨{ t with data := .f16 (p.set idx (f32_to_f16 v)) }, ?_, ?_⟩
    · unfold tensor_set
      rw [if_neg (by omega), if_neg hne, if_pos hty, hd]
      simp only
      rw [if_pos (by omega)]
    · unfold tensor_get
      simp only
      rw [if_neg (by omega), if_neg hne, if_pos hty]
      simp [List.getElem?_set_self, hl, hi]

/-- Witness for C9: storing 0.1 (pattern `0x3DCCCCCD`) in a Float16 tensor and
reading it back gives `0x3DCCC000`. -/
theorem tensor_set_get_float_witness :
    ∃ t', tensor_set ⟨.TYPE_F16, 2, 0x3F800000, 0, .f16 [0, 0]⟩ 1 0x3DCCCCCD = .ok t' ∧
      tensor_get t' 1 = .ok (f16_to_f32 (f32_to_f16 0x3DCCCCCD)) :=
  (tensor_set_get_float ⟨.TYPE_F16, 2, 0x3F800000, 0, .f16 [0, 0]⟩ 1 0x3DCCCCCD
    (by decide) (by decide)).2 (by decide)

/-- C10: on an Int8 tensor `tensor_get` at an index in range returns the float
product `(float)(c - zero_point) * scale` for the stored code `c`; the
difference is the integer difference, between -255 and 255, and its conversion
to float is exact (stored -128 with zero_point 127 and scale 1.0 gives
-255.0, pattern `0xC37F0000`). -/
theorem tensor_get_int8 (t : DynamicTensor) (idx : Nat) (hwf : t.wf = true)
    (hty : t.type = .TYPE_INT8) (hi : idx < t.size) :
    (∃ p c, t.data = .i8 p ∧ p[idx]? = some c ∧
        tensor_get t idx = .ok (f32_mul (i32_to_f32 (c - t.zero_point)) t.scale) ∧
        -255 ≤ c - t.zero_point ∧ c - t.zero_point ≤ 255 ∧
        f32_scaled (i32_to_f32 (c - t.zero_point)) = (c - t.zero_point) * 2 ^ 149) ∧
      tensor_get ⟨.TYPE_INT8, 1, 0x3F800000, 127, .i8 [-128]⟩ 0 = .ok 0xC37F0000 ∧
      f32_scaled 0xC37F0000 = -255 * 2 ^ 149 := by
  refine ⟨?_, by rfl, by decide⟩
  obtain ⟨p, hd, hl, hr⟩ := wf_i8 t hwf hty
  obtain ⟨-, -, hz1, hz2, -, -, -⟩ := wf_fields t hwf
  have hip : idx < p.length := by omega
  have hc := hr (p[idx]) (List.getElem_mem hip)
  have hget : p[idx]? = some p[idx] := List.getElem?_eq_getElem hip
  refine ⟨p, p[idx], hd, hget, ?_, by omega, by omega,
    (i32_to_f32_exact _ (by omega)).2.2.2⟩
  unfold tensor_get
  rw [if_neg (by omega), if_neg (by rw [hty]; decide), if_neg (by rw [hty]; decide), hd]
  simp only [hget]

/-- Witness for C10: code 5 with zero_point -3 and scale 0.5. -/
theorem tensor_get_int8_witness :
    ∃ p c, (⟨.TYPE_INT8, 1, 0x3F000000, -3, .i8 [5]⟩ : DynamicTensor).data = .i8 p ∧
      p[0]? = some c ∧
      tensor_get ⟨.TYPE_INT8, 1, 0x3F000000, -3, .i8 [5]⟩ 0
        = .ok (f32_mul (i32_to_f32 (c - (-3))) 0x3F000000) ∧
      -255 ≤ c - (-3) ∧ c - (-3) ≤ 255 ∧
      f32_scaled (i32_to_f32 (c - (-3))) = (c - (-3)) * 2 ^ 149 :=
  (tensor_get_int8 ⟨.TYPE_INT8, 1, 0x3F000000, -3, .i8 [5]⟩ 0 (by decide) (by decide)
    (by decide)).1

/-- In-range behaviour of the Int8 store: when the conversion of `val / scale`
is defined and adding `zero_point` stays within `int32_t`, the clamped code is
stored unchanged by the narrowing to `int8_t`. -/
theorem tensor_set_int8_code (t : DynamicTensor) (idx val : Nat) (c : Int)
    (hwf : t.wf = true) (hty : t.type = .TYPE_INT8) (hi : idx < t.size)
    (hc : f32_to_i32 (f32_div val t.scale) = some c)
    (hq : -2 ^ 31 ≤ c + t.zero_point ∧ c + t.zero_point < 2 ^ 31) :
    ∃ p, t.data = .i8 p ∧
      tensor_set t idx val = .ok { t with data := .i8 (p.set idx (clamp_q (c + t.zero_point))) } ∧
      (-128 ≤ c + t.zero_point → c + t.zero_point ≤ 127 →
        clamp_q (c + t.zero_point) = c + t.zero_point) ∧
      (127 < c + t.zero_point → clamp_q (c + t.zero_point) = 127) ∧
      (c + t.zero_point < -128 → clamp_q (c + t.zero_point) = -128) := by
  obtain ⟨p, hd, hl, -⟩ := wf_i8 t hwf hty
  have hclamp : -128 ≤ clamp_q (c + t.zero_point) ∧ clamp_q (c + t.zero_point) ≤ 127 := by
    unfold clamp_q
    simp only
    split_ifs <;> omega
  have h8 : toInt8 (clamp_q (c + t.zero_point)) = clamp_q (c + t.zero_point) := by
    unfold toInt8
    omega
  refine ⟨p, hd, ?_, ?_, ?_, ?_⟩
  · unfold tensor_set
    rw [if_neg (by omega), if_neg (by rw [hty]; decide), if_neg (by rw [hty]; decide), hc]
    simp only
    rw [if_neg (by omega), hd]
    simp only
    rw [if_pos (by omega), h8]
  · intro h1 h2
    unfold clamp_q
    simp only
    split_ifs <;> omega
  · intro h1
    unfold clamp_q
    simp only
    split_ifs <;> omega
  · intro h1
    unfold clamp_q
    simp only
    split_ifs <;> omega

/-- C3 at a failing input: with scale 1.0 and zero_point 0 the value
2147483648.0 (pattern `0x4F000000`, that is `2 ^ 31`) has quantised code
`2 ^ 31 > 127`, yet `tensor_set` does not store 127: the conversion to
`int32_t` that precedes the clamp is out of range, so the C code has no
defined result there. -/
theorem tensor_set_int8_out_of_range :
    f32_scaled 0x4F000000 = 2 ^ 31 * 2 ^ 149 ∧
      f32_div 0x4F000000 0x3F800000 = 0x4F000000 ∧
      tensor_set ⟨.TYPE_INT8, 1, 0x3F800000, 0, .i8 [0]⟩ 0 0x4F000000
        = .error .undefinedConversion := by
  refine ⟨by decide, by decide, by rfl⟩

/-! ## The loops of the quantizer -/

theorem f32_abs_fields (v : Nat) :
    f32_sign (f32_abs v) = 0 ∧ f32_exp (f32_abs v) = f32_exp v ∧
      f32_mant (f32_abs v) = f32_mant v ∧ f32_mag (f32_abs v) = f32_mag v ∧
      f32_isNaN (f32_abs v) = f32_isNaN v := by
  have h1 : f32_sign (f32_abs v) = 0 := by unfold f32_sign f32_abs; omega
  have h2 : f32_exp (f32_abs v) = f32_exp v := by unfold f32_exp f32_abs; omega
  have h3 : f32_mant (f32_abs v) = f32_mant v := by unfold f32_mant f32_abs; omega
  refine ⟨h1, h2, h3, ?_, ?_⟩
  · unfold f32_mag
    rw [h2, h3]
  · unfold f32_isNaN
    rw [h2, h3]

theorem f32_scaled_of_sign_zero (v : Nat) (h : f32_sign v = 0) :
    f32_scaled v = (f32_mag v : Int) := by
  unfold f32_scaled
  rw [if_neg (by omega)]

theorem f32_scaled_zero : f32_scaled 0 = 0 := by decide

theorem f32_isNaN_zero : f32_isNaN 0 = false := by decide

/-- One iteration of the first loop computes `f32_max m (f32_abs v)` when the
running maximum has a clear sign bit. -/
theorem max_step (m v : Nat) (hv : v < 2 ^ 32) (hm : f32_sign m = 0) :
    (if f32_lt m (if f32_lt v 0 then f32_neg v else v)
      then (if f32_lt v 0 then f32_neg v else v) else m) = f32_max m (f32_abs v) ∧
      f32_sign (f32_max m (f32_abs v)) = 0 := by
  obtain ⟨ha1, ha2, ha3, ha4, ha5⟩ := f32_abs_fields v
  have hsm := f32_scaled_of_sign_zero m hm
  have hsa := f32_scaled_of_sign_zero _ ha1
  have hsign : f32_sign (f32_max m (f32_abs v)) = 0 := by
    unfold f32_max
    split
    · exact ha1
    · exact hm
  refine ⟨?_, hsign⟩
  unfold f32_max
  rcases f32_sign_lt_two v with hs0 | hs1
  · -- non-negative sign: `v < 0` is false and `|v| = v`
    have habs : f32_abs v = v := by
      unfold f32_abs
      unfold f32_sign at hs0
      omega
    have hlt : f32_lt v 0 = false := by
      unfold f32_lt
      rw [f32_scaled_of_sign_zero v hs0, f32_scaled_zero]
      simp
    rw [hlt, habs]
    simp
  · by_cases hlt : f32_lt v 0 = true
    · have hneg : f32_neg v = f32_abs v := by
        unfold f32_neg f32_abs
        rw [if_pos hs1]
        unfold f32_sign at hs1
        omega
      rw [hlt, hneg]
      simp
    · -- a negative zero or a NaN with the sign bit set: never above the maximum
      have hlt' : f32_lt v 0 = false := by simpa using hlt
      rw [hlt']
      simp only [Bool.false_eq_true, if_false]
      have hsv : f32_scaled v = -(f32_mag v : Int) := by
        unfold f32_scaled
        rw [if_pos hs1]
      have hcase : f32_isNaN v = true ∨ f32_mag v = 0 := by
        by_contra hcon
        push_neg at hcon
        apply hlt
        unfold f32_lt
        rw [hsv, f32_scaled_zero]
        have : f32_isNaN v = false := by simpa using hcon.1
        simp [this, f32_isNaN_zero]
        omega
      have h1 : f32_lt m v = false := by
        unfold f32_lt
        rw [hsv, hsm]
        rcases hcase with hn | hz
        · simp [hn]
        · simp [hz]
      have h2 : f32_lt m (f32_abs v) = false := by
        unfold f32_lt
        rw [hsa, hsm, ha4, ha5]
        rcases hcase with hn | hz
        · simp [hn]
        · simp [hz]
      rw [h1, h2]
      simp

/-- The first loop computes `max_abs` of the elements from index `i` on. -/
theorem quantize_max_loop_eq (p : List Nat) (hp : ∀ v ∈ p, v < 2 ^ 32) (hlen : p.length < 2 ^ 16)
    (fuel i m : Nat) (hi : i ≤ p.length) (hfuel : p.length - i < fuel) (hm : f32_sign m = 0) :
    quantize_max_loop p p.length fuel i m
      = .ok ((p.drop i).foldl (fun m v => f32_max m (f32_abs v)) m) := by
  induction fuel generalizing i m with
  | zero => omega
  | succ f ih =>
    unfold quantize_max_loop
    by_cases hlt : i < p.length
    · rw [if_pos hlt]
      have hget : p[i]? = some p[i] := List.getElem?_eq_getElem hlt
      rw [hget]
      simp only
      have hstep := max_step m p[i] (hp _ (List.getElem_mem hlt)) hm
      rw [hstep.1, Nat.mod_eq_of_lt (by omega), ih (i + 1) _ (by omega) (by omega) hstep.2]
      rw [List.drop_eq_getElem_cons hlt]
      rfl
    · rw [if_neg hlt]
      have : i = p.length := by omega
      subst this
      simp

theorem clamp_q_range (q : Int) : -128 ≤ clamp_q q ∧ clamp_q q ≤ 127 := by
  unfold clamp_q
  simp only
  split_ifs <;> omega

theorem toInt8_clamp_q (q : Int) : toInt8 (clamp_q q) = clamp_q q := by
  have := clamp_q_range q
  unfold toInt8
  omega

/-- The second loop, when every conversion is defined: it completes, keeps the
cells below `i` and stores the clamped code of every element from `i` on. -/
theorem quantize_store_loop_ok (p : List Nat) (scale : Nat) (hlen : p.length < 2 ^ 16)
    (hdef : ∀ v ∈ p, ∃ q, f32_to_i32 (f32_div v scale) = some q)
    (fuel i : Nat) (out : List Int) (hi : i ≤ p.length) (hout : out.length = p.length)
    (hfuel : p.length - i < fuel) :
    ∃ out', quantize_store_loop p p.length scale fuel i out = .ok out' ∧
      out'.length = p.length ∧ (∀ k, k < i → out'[k]? = out[k]?) ∧
      ∀ k (hk : k < p.length), i ≤ k →
        ∃ q, f32_to_i32 (f32_div p[k] scale) = some q ∧ out'[k]? = some (clamp_q q) := by
  induction fuel generalizing i out with
  | zero => omega
  | succ f ih =>
    unfold quantize_store_loop
    by_cases hlt : i < p.length
    · rw [if_pos hlt]
      have hget : p[i]? = some p[i] := List.getElem?_eq_getElem hlt
      obtain ⟨q, hq⟩ := hdef _ (List.getElem_mem hlt)
      rw [hget]
      simp only [hq]
      rw [if_pos (by omega), Nat.mod_eq_of_lt (by omega), toInt8_clamp_q]
      obtain ⟨out', h1, h2, h3, h4⟩ :=
        ih (i + 1) (out.set i (clamp_q q)) (by omega) (by simp [hout]) (by omega)
      refine ⟨out', h1, h2, ?_, ?_⟩
      · intro k hk
        rw [h3 k (by omega), List.getElem?_set_ne (by omega)]
      · intro k hk hik
        by_cases hki : k = i
        · subst hki
          refine ⟨q, hq, ?_⟩
          rw [h3 k (by omega), List.getElem?_set_self (by omega)]
        · exact h4 k hk (by omega)
    · rw [if_neg hlt]
      refine ⟨out, rfl, hout, fun _ _ => rfl, ?_⟩
      intro k hk hik
      omega

/-- Properties of a running maximum of absolute values. -/
theorem foldl_max_abs (p : List Nat) (m : Nat) (hm : f32_sign m = 0)
    (hn : f32_isNaN m = false) :
    f32_sign (p.foldl (fun m v => f32_max m (f32_abs v)) m) = 0 ∧
      f32_isNaN (p.foldl (fun m v => f32_max m (f32_abs v)) m) = false ∧
      f32_mag m ≤ f32_mag (p.foldl (fun m v => f32_max m (f32_abs v)) m) ∧
      (∀ v ∈ p, f32_isNaN v = false →
        f32_mag v ≤ f32_mag (p.foldl (fun m v => f32_max m (f32_abs v)) m)) ∧
      (p.foldl (fun m v => f32_max m (f32_abs v)) m = m ∨
        ∃ v ∈ p, p.foldl (fun m v => f32_max m (f32_abs v)) m = f32_abs v) := by
  induction p generalizing m with
  | nil => simp [hm, hn]
  | cons a l ih =>
    simp only [List.foldl_cons]
    obtain ⟨ha1, ha2, ha3, ha4, ha5⟩ := f32_abs_fields a
    have hsm := f32_scaled_of_sign_zero m hm
    have hsa := f32_scaled_of_sign_zero _ ha1
    by_cases hlt : f32_lt m (f32_abs a) = true
    · have hmax : f32_max m (f32_abs a) = f32_abs a := by unfold f32_max; rw [if_pos hlt]
      have hlt' := hlt
      unfold f32_lt at hlt'
      rw [hsm, hsa, ha4, ha5] at hlt'
      simp only [Bool.and_eq_true, Bool.not_eq_true', decide_eq_true_eq] at hlt'
      obtain ⟨⟨_, hna⟩, hmag⟩ := hlt'
      rw [hmax]
      obtain ⟨i1, i2, i3, i4, i5⟩ := ih (f32_abs a) ha1 (by rw [ha5]; exact hna)
      rw [ha4] at i3
      refine ⟨i1, i2, by omega, ?_, ?_⟩
      · intro v hv hvn
        rcases List.mem_cons.1 hv with rfl | hvl
        · exact i3
        · exact i4 v hvl hvn
      · right
        rcases i5 with h | ⟨v, hv, h⟩
        · exact ⟨a, List.mem_cons_self _ _, h⟩
        · exact ⟨v, List.mem_cons_of_mem _ hv, h⟩
    · have hmax : f32_max m (f32_abs a) = m := by unfold f32_max; rw [if_neg hlt]
      rw [hmax]
      obtain ⟨i1, i2, i3, i4, i5⟩ := ih m hm hn
      refine ⟨i1, i2, i3, ?_, ?_⟩
      · intro v hv hvn
        rcases List.mem_cons.1 hv with rfl | hvl
        · have hle : f32_mag v ≤ f32_mag m := by
            by_contra hcon
            apply hlt
            unfold f32_lt
            rw [hsm, hsa, ha4, ha5, hn, hvn]
            simp
            omega
          omega
        · exact i4 v hvl hvn
      · rcases i5 with h | ⟨v, hv, h⟩
        · exact Or.inl h
        · exact Or.inr ⟨v, List.mem_cons_of_mem _ hv, h⟩

theorem f32_exp_lt (x : Nat) : f32_exp x < 256 := by
  unfold f32_exp
  exact Nat.mod_lt _ (by norm_num)

/-- A finite float does not exceed the largest finite magnitude. -/
theorem f32_mag_le_max (x : Nat) (h : f32_exp x ≠ 255) : f32_mag x ≤ (2 ^ 24 - 1) * 2 ^ 253 := by
  have hm := f32_mant_lt x
  have he := f32_exp_lt x
  rcases f32_mag_bounds x with ⟨_, hmag⟩ | ⟨h1, hmag, -, -⟩
  · rw [hmag]
    have : (2 ^ 23 : Nat) ≤ (2 ^ 24 - 1) * 2 ^ 253 := by norm_num
    omega
  · rw [hmag]
    exact Nat.mul_le_mul (by omega) (Nat.pow_le_pow_right (by norm_num) (by omega))

/-- The conversion to `int32_t` of a finite float whose integer part is below
`2 ^ 31` is defined and truncates toward zero. -/
theorem f32_to_i32_finite (c : Nat) (hc : f32_exp c ≠ 255) (hq : f32_mag c / 2 ^ 149 < 2 ^ 31) :
    f32_to_i32 c = some (if f32_sign c = 1 then -((f32_mag c / 2 ^ 149 : Nat) : Int)
      else ((f32_mag c / 2 ^ 149 : Nat) : Int)) := by
  unfold f32_to_i32
  rw [(f32_finite_flags c hc).2.2]
  simp only [if_true]
  rw [if_pos]
  split <;> constructor <;> omega

/-- The magnitude of 127.0 in units of `2 ^ (-149)`. -/
theorem f32_mag_127 : f32_mag 0x42FE0000 = 127 * 2 ^ 149 ∧ f32_exp 0x42FE0000 ≠ 255 ∧
    f32_sign 0x42FE0000 = 0 := by
  decide

/-- A nonzero `scale = max / 127.0` is at least `max / 191`. -/
theorem scale_lower_bound (m : Nat) (hm : f32_exp m ≠ 255)
    (hs : f32_mag (f32_div m 0x42FE0000) ≠ 0) :
    f32_exp (f32_div m 0x42FE0000) ≠ 255 ∧
      f32_mag m ≤ 191 * f32_mag (f32_div m 0x42FE0000) := by
  obtain ⟨h127, he127, -⟩ := f32_mag_127
  have hM := f32_mag_le_max m hm
  have hmax : f32_mag m * 2 ^ 149 ≤ (2 ^ 24 - 1) * 2 ^ 253 * f32_mag 0x42FE0000 := by
    rw [h127]
    calc f32_mag m * 2 ^ 149 ≤ (2 ^ 24 - 1) * 2 ^ 253 * 2 ^ 149 := Nat.mul_le_mul_right _ hM
      _ ≤ (2 ^ 24 - 1) * 2 ^ 253 * (127 * 2 ^ 149) :=
        Nat.mul_le_mul_left _ (Nat.le_mul_of_pos_left _ (by norm_num))
  obtain ⟨h1, h2, -⟩ := f32_div_finite m 0x42FE0000 hm he127 (by rw [h127]; positivity) hmax
  refine ⟨h1, ?_⟩
  rw [h2] at hs ⊢
  obtain ⟨-, -, -, herr⟩ := f32_round_mag (f32_mag m * 2 ^ 149) (f32_mag 0x42FE0000)
    (by rw [h127]; positivity) hmax
  rw [h127] at herr hs ⊢
  generalize f32_mag (f32_round (f32_mag m * 2 ^ 149) (127 * 2 ^ 149)) = S at *
  generalize f32_mag m = M at *
  have hS : 1 ≤ S := by omega
  have e1 : S * (127 * 2 ^ 149) = (127 * S) * 2 ^ 149 := by ring
  rw [e1] at herr
  rcases herr with ⟨-, hl⟩ | ⟨-, hl⟩
  · have h3 : (2 * M) * 2 ^ 149 ≤ (2 * (127 * S) + 127) * 2 ^ 149 := by
      calc (2 * M) * 2 ^ 149 = 2 * (M * 2 ^ 149) := by ring
        _ ≤ 2 * (127 * S * 2 ^ 149) + 127 * 2 ^ 149 := hl
        _ = (2 * (127 * S) + 127) * 2 ^ 149 := by ring
    have h4 := Nat.le_of_mul_le_mul_right h3 (by positivity)
    omega
  · have h3 : (2 ^ 24 * M) * 2 ^ 149 ≤ (2 ^ 24 * (127 * S) + M) * 2 ^ 149 := by
      calc (2 ^ 24 * M) * 2 ^ 149 = 2 ^ 24 * (M * 2 ^ 149) := by ring
        _ ≤ 2 ^ 24 * (127 * S * 2 ^ 149) + M * 2 ^ 149 := hl
        _ = (2 ^ 24 * (127 * S) + M) * 2 ^ 149 := by ring
    have h4 := Nat.le_of_mul_le_mul_right h3 (by positivity)
    omega

/-- Dividing a finite `v` by a finite nonzero `s` with `|v| ≤ 191 |s|` gives a
finite quotient whose conversion to `int32_t` is defined. -/
theorem quotient_defined (v s : Nat) (hv : f32_exp v ≠ 255) (hs : f32_exp s ≠ 255)
    (hs0 : f32_mag s ≠ 0) (hle : f32_mag v ≤ 191 * f32_mag s) :
    ∃ q, f32_to_i32 (f32_div v s) = some q ∧ -192 ≤ q ∧ q ≤ 192 := by
  have hS := f32_mag_le_max s hs
  have hmax : f32_mag v * 2 ^ 149 ≤ (2 ^ 24 - 1) * 2 ^ 253 * f32_mag s := by
    calc f32_mag v * 2 ^ 149 ≤ 191 * f32_mag s * 2 ^ 149 := Nat.mul_le_mul_right _ hle
      _ = (191 * 2 ^ 149) * f32_mag s := by ring
      _ ≤ (2 ^ 24 - 1) * 2 ^ 253 * f32_mag s := Nat.mul_le_mul_right _ (by norm_num)
  obtain ⟨h1, h2, -⟩ := f32_div_finite v s hv hs (by omega) hmax
  obtain ⟨-, -, -, herr⟩ := f32_round_mag (f32_mag v * 2 ^ 149) (f32_mag s) (by omega) hmax
  rw [← h2] at herr
  have hC : f32_mag (f32_div v s) < 193 * 2 ^ 149 := by
    generalize f32_mag (f32_div v s) = C at *
    generalize f32_mag v = X at *
    generalize f32_mag s = S at *
    have hXS : X * 2 ^ 149 ≤ (191 * 2 ^ 149) * S := by
      calc X * 2 ^ 149 ≤ 191 * S * 2 ^ 149 := Nat.mul_le_mul_right _ hle
        _ = (191 * 2 ^ 149) * S := by ring
    have hkey : 2 * (C * S) ≤ 2 * ((192 * 2 ^ 149) * S) := by
      rcases herr with ⟨hu, -⟩ | ⟨hu, -⟩
      · have : S ≤ (2 ^ 149) * S := Nat.le_mul_of_pos_left _ (by positivity)
        have e : 2 * ((192 * 2 ^ 149) * S) = 2 * ((191 * 2 ^ 149) * S) + 2 * (2 ^ 149 * S) := by
          ring
        omega
      · have e : 2 * ((192 * 2 ^ 149) * S) = 2 * ((191 * 2 ^ 149) * S) + 2 * (2 ^ 149 * S) := by
          ring
        have e2 : (191 * 2 ^ 149) * S ≤ 2 ^ 24 * (2 ^ 149 * S) := by
          calc (191 * 2 ^ 149) * S = 191 * (2 ^ 149 * S) := by ring
            _ ≤ 2 ^ 24 * (2 ^ 149 * S) := Nat.mul_le_mul_right _ (by norm_num)
        generalize 2 ^ 149 * S = PS at *
        generalize (191 * 2 ^ 149) * S = B at *
        generalize X * 2 ^ 149 = XP at *
        generalize C * S = CS at *
        omega
    have h3 := Nat.le_of_mul_le_mul_left hkey (by norm_num)
    have h4 := Nat.le_of_mul_le_mul_right h3 (by omega)
    omega
  have hq : f32_mag (f32_div v s) / 2 ^ 149 < 193 := (Nat.div_lt_iff_lt_mul (by positivity)).2 hC
  refine ⟨_, f32_to_i32_finite _ h1 (by omega), ?_⟩
  split <;> omega

/-- Division by a zero `s` gives a NaN or an infinity, whose conversion to
`int32_t` is undefined. -/
theorem quotient_by_zero_undefined (v s : Nat) (hs : f32_mag s = 0) :
    f32_to_i32 (f32_div v s) = none := by
  have hse : f32_exp s ≠ 255 := by
    rcases f32_mag_bounds s with ⟨h, -⟩ | ⟨-, -, hl, -⟩
    · omega
    · have : 0 < 2 ^ (f32_exp s + 22) := by positivity
      omega
  obtain ⟨hsn, hsi, -⟩ := f32_finite_flags s hse
  have hnan : f32_to_i32 f32_nan = none := by decide
  have hinf : ∀ x, (x = 0 ∨ x = 2 ^ 31) → f32_to_i32 (x + 0x7F800000) = none := by
    intro x hx
    rcases hx with rfl | rfl <;> decide
  have hxs : f32_xor_sign v s = 0 ∨ f32_xor_sign v s = 2 ^ 31 := by
    rcases f32_xor_sign_cases v s with ⟨h, -⟩ | ⟨h, -⟩
    · exact Or.inl h
    · exact Or.inr h
  unfold f32_div
  simp only [hsn, hsi, Bool.or_false, Bool.false_eq_true, if_false, hs, if_true]
  split
  · exact hnan
  · split
    · exact hinf _ hxs
    · split
      · exact hnan
      · exact hinf _ hxs

/-! ## Claims on the quantizer -/

/-- C1, refuted as stated: for the one-element source `[0.0]` the scale is
`0 / 127 = 0`, the quotient `0 / 0` is a NaN, and its conversion to `int32_t`
is undefined: the destination is left with no determined code. -/
theorem quantize_all_zero_counterexample :
    quantize_scale [0] = 0 ∧ f32_div 0 0 = f32_nan ∧ f32_to_i32 f32_nan = none ∧
      quantize_f32_to_int8 ⟨.TYPE_F32, 1, 0x3F800000, 0, .f32 [0]⟩
        ⟨.TYPE_INT8, 1, 0x3F800000, 0, .i8 [0]⟩ = .error .undefinedConversion := by
  refine ⟨by decide, by decide, by decide, by rfl⟩

/-- C1, amended: for a Float32 source and an Int8 destination of equal length,
`max_abs` is the largest magnitude of the source (`+0.0` for an empty one);
when every source element is finite and, unless the source is empty, the
float `scale = max_abs / 127.0` is not zero, `quantize_f32_to_int8` completes
and leaves `zero_point = 0`, that `scale`, and at every index the truncation
toward zero of the float quotient `source[i] / scale`, clamped to
`[-128, 127]`; when the source is not empty and the scale is zero the run
reaches an undefined conversion.  For the source `[3.0, -6.0, 1.5]` the scale is the float
nearest to `6 / 127` (pattern `0x3D418306`) and the codes are
`[63, -127, 31]`. -/
theorem quantize_contract (src dst : DynamicTensor) (hsw : src.wf = true)
    (hdw : dst.wf = true) (hst : src.type = .TYPE_F32) (hdt : dst.type = .TYPE_INT8)
    (hsz : src.size = dst.size) :
    (∃ p, src.data = .f32 p ∧ p.length = src.size ∧
      (∀ v ∈ p, f32_isNaN v = false → f32_mag v ≤ f32_mag (max_abs p)) ∧
      (max_abs p = 0 ∨ ∃ v ∈ p, max_abs p = f32_abs v) ∧
      ((∀ v ∈ p, f32_isFinite v = true) → (p ≠ [] → f32_mag (quantize_scale p) ≠ 0) →
        ∃ codes, quantize_f32_to_int8 src dst
            = .ok { dst with scale := quantize_scale p, zero_point := 0, data := .i8 codes } ∧
          codes.length = p.length ∧
          ∀ i (hi : i < p.length), ∃ q,
            f32_to_i32 (f32_div p[i] (quantize_scale p)) = some q ∧
            codes[i]? = some (clamp_q q)) ∧
      (p ≠ [] → f32_mag (quantize_scale p) = 0 →
        quantize_f32_to_int8 src dst = .error .undefinedConversion)) ∧
      quantize_f32_to_int8
          ⟨.TYPE_F32, 3, 0x3F800000, 0, .f32 [0x40400000, 0xC0C00000, 0x3FC00000]⟩
          ⟨.TYPE_INT8, 3, 0x3F800000, 0, .i8 [0, 0, 0]⟩
        = .ok ⟨.TYPE_INT8, 3, 0x3D418306, 0, .i8 [63, -127, 31]⟩ ∧
      f32_div 0x40C00000 0x42FE0000 = 0x3D418306 ∧
      |f32_toRat 0x3D418306 - 6 / 127| < 1 / 2 ^ 28 := by
  refine ⟨?_, by rfl, by decide, ?_⟩
  · obtain ⟨p, hp, hpl⟩ := wf_f32 src hsw hst
    obtain ⟨out, hout, houtl, -⟩ := wf_i8 dst hdw hdt
    obtain ⟨hsize, -, -, -, -, -, hrange⟩ := wf_fields src hsw
    have hp32 : ∀ v ∈ p, v < 2 ^ 32 := by
      rw [hp] at hrange
      simpa [TensorData.inRange] using hrange
    obtain ⟨m1, m2, -, m4, m5⟩ := foldl_max_abs p 0 (by decide) (by decide)
    have hlen : p.length < 2 ^ 16 := by omega
    have hmaxloop := quantize_max_loop_eq p hp32 hlen (2 ^ 16 + 1) 0 0 (by omega) (by omega)
      (by decide)
    simp only [List.drop_zero] at hmaxloop
    refine ⟨p, hp, hpl, m4, ?_, ?_, ?_⟩
    · rcases m5 with h | h
      · exact Or.inl h
      · exact Or.inr h
    · intro hfin hscale
      have hdef : ∀ v ∈ p, ∃ q, f32_to_i32 (f32_div v (quantize_scale p)) = some q := by
        intro v hv
        have hpne : p ≠ [] := List.ne_nil_of_mem hv
        have hs0 := hscale hpne
        have hmfin : f32_exp (max_abs p) ≠ 255 := by
          rcases m5 with h | ⟨w, hw, h⟩
          · unfold max_abs
            rw [h]
            decide
          · unfold max_abs
            rw [h, (f32_abs_fields w).2.1]
            have := hfin w hw
            simpa [f32_isFinite] using this
        obtain ⟨hs1, hs2⟩ := scale_lower_bound (max_abs p) hmfin hs0
        have hvfin : f32_exp v ≠ 255 := by
          have := hfin v hv
          simpa [f32_isFinite] using this
        have hvn := (f32_finite_flags v hvfin).1
        obtain ⟨q, hq, -⟩ := quotient_defined v (quantize_scale p) hvfin hs1 hs0
          (le_trans (m4 v hv hvn) hs2)
        exact ⟨q, hq⟩
      obtain ⟨codes, c1, c2, -, c4⟩ := quantize_store_loop_ok p (quantize_scale p) hlen hdef
        (2 ^ 16 + 1) 0 out (by omega) (by omega) (by omega)
      refine ⟨codes, ?_, c2, fun i hi => c4 i hi (by omega)⟩
      unfold quantize_f32_to_int8
      rw [if_neg (by rw [hst, hdt]; simp), hp, hout]
      simp only
      rw [← hpl, hmaxloop]
      simp only
      rw [show f32_div (List.foldl (fun m v => f32_max m (f32_abs v)) 0 p) 0x42FE0000
        = quantize_scale p from rfl, c1]
    · intro hne hzero
      obtain ⟨v, l, rfl⟩ := List.exists_cons_of_ne_nil hne
      have hq := quotient_by_zero_undefined v (quantize_scale (v :: l)) hzero
      unfold quantize_f32_to_int8
      rw [if_neg (by rw [hst, hdt]; simp), hp, hout]
      simp only
      rw [← hpl, hmaxloop]
      simp only
      rw [show f32_div (List.foldl (fun m v => f32_max m (f32_abs v)) 0 (v :: l)) 0x42FE0000
        = quantize_scale (v :: l) from rfl]
      have hloop : quantize_store_loop (v :: l) (v :: l).length (quantize_scale (v :: l))
          (2 ^ 16 + 1) 0 out = .error .undefinedConversion := by
        rw [show (2 : Nat) ^ 16 + 1 = 2 ^ 16 + 0 + 1 from rfl]
        unfold quantize_store_loop
        simp [hq]
      rw [hloop]
  · have hs : f32_scaled 0x3D418306 = 12681990 * 2 ^ 121 := by decide
    unfold f32_toRat
    rw [hs, abs_lt]
    constructor <;> norm_num

/-- Witness for the amended C1 on the example of the specification. -/
theorem quantize_contract_witness :
    ∃ codes, quantize_f32_to_int8
        ⟨.TYPE_F32, 3, 0x3F800000, 0, .f32 [0x40400000, 0xC0C00000, 0x3FC00000]⟩
        ⟨.TYPE_INT8, 3, 0x3F800000, 0, .i8 [0, 0, 0]⟩
      = .ok ⟨.TYPE_INT8, 3, quantize_scale [0x40400000, 0xC0C00000, 0x3FC00000], 0, .i8 codes⟩ ∧
      codes.length = 3 := by
  obtain ⟨p, hp, -, -, -, h, -⟩ := (quantize_contract
    ⟨.TYPE_F32, 3, 0x3F800000, 0, .f32 [0x40400000, 0xC0C00000, 0x3FC00000]⟩
    ⟨.TYPE_INT8, 3, 0x3F800000, 0, .i8 [0, 0, 0]⟩
    (by decide) (by decide) (by decide) (by decide) (by decide)).1
  cases hp
  obtain ⟨codes, h1, h2, -⟩ := h (by decide) (by decide)
  exact ⟨codes, h1, h2⟩

/-! ## The Int8 round trip -/

/-- Division step of the round trip: with `|x| ≤ 127 s` the quotient is finite,
its integer part `n` is at most 127 and `n s` is within `s (1 + 127 / 2 ^ 24)`
of `|x|`. -/
theorem round_trip_div (x s : Nat) (hx : f32_exp x ≠ 255) (hs : f32_exp s ≠ 255)
    (hS : 0 < f32_mag s) (hle : f32_mag x ≤ 127 * f32_mag s) :
    f32_exp (f32_div x s) ≠ 255 ∧
      (f32_sign (f32_div x s) = 1 ↔ f32_sign x ≠ f32_sign s) ∧
      f32_mag (f32_div x s) / 2 ^ 149 ≤ 127 ∧
      2 ^ 24 * (f32_mag (f32_div x s) / 2 ^ 149 * f32_mag s)
        ≤ 2 ^ 24 * f32_mag x + 127 * f32_mag s ∧
      2 ^ 24 * f32_mag x
        < 2 ^ 24 * ((f32_mag (f32_div x s) / 2 ^ 149 + 1) * f32_mag s) + 127 * f32_mag s := by
  have hmax : f32_mag x * 2 ^ 149 ≤ (2 ^ 24 - 1) * 2 ^ 253 * f32_mag s := by
    calc f32_mag x * 2 ^ 149 ≤ 127 * f32_mag s * 2 ^ 149 := Nat.mul_le_mul_right _ hle
      _ = (127 * 2 ^ 149) * f32_mag s := by ring
      _ ≤ (2 ^ 24 - 1) * 2 ^ 253 * f32_mag s := Nat.mul_le_mul_right _ (by norm_num)
  obtain ⟨h1, h2, h3⟩ := f32_div_finite x s hx hs hS hmax
  obtain ⟨-, -, -, herr⟩ := f32_round_mag (f32_mag x * 2 ^ 149) (f32_mag s) hS hmax
  rw [← h2] at herr
  refine ⟨h1, h3, ?_⟩
  have hdm := Nat.div_add_mod (f32_mag (f32_div x s)) (2 ^ 149)
  have hml := Nat.mod_lt (f32_mag (f32_div x s)) (by positivity : 0 < 2 ^ 149)
  generalize f32_mag (f32_div x s) = C at *
  generalize f32_mag x = X at *
  generalize f32_mag s = S at *
  generalize hn : C / 2 ^ 149 = n at *
  generalize C % 2 ^ 149 = r at *
  -- unified error bounds, still carrying the factor `2 ^ 149`
  have hXS : X * 2 ^ 149 ≤ 127 * (S * 2 ^ 149) := by
    calc X * 2 ^ 149 ≤ 127 * S * 2 ^ 149 := Nat.mul_le_mul_right _ hle
      _ = 127 * (S * 2 ^ 149) := by ring
  have hSP : 2 ^ 23 * S ≤ 127 * (S * 2 ^ 149) := by
    calc 2 ^ 23 * S ≤ (127 * 2 ^ 149) * S := Nat.mul_le_mul_right _ (by norm_num)
      _ = 127 * (S * 2 ^ 149) := by ring
  have hup : 2 ^ 24 * (C * S) ≤ 2 ^ 24 * (X * 2 ^ 149) + 127 * (S * 2 ^ 149) := by
    rcases herr with ⟨hu, -⟩ | ⟨hu, -⟩
    · generalize C * S = CS at *
      generalize X * 2 ^ 149 = XP at *
      generalize S * 2 ^ 149 = SP at *
      omega
    · generalize C * S = CS at *
      generalize X * 2 ^ 149 = XP at *
      generalize S * 2 ^ 149 = SP at *
      omega
  have hlo : 2 ^ 24 * (X * 2 ^ 149) ≤ 2 ^ 24 * (C * S) + 127 * (S * 2 ^ 149) := by
    rcases herr with ⟨-, hl⟩ | ⟨-, hl⟩
    · generalize C * S = CS at *
      generalize X * 2 ^ 149 = XP at *
      generalize S * 2 ^ 149 = SP at *
      omega
    · generalize C * S = CS at *
      generalize X * 2 ^ 149 = XP at *
      generalize S * 2 ^ 149 = SP at *
      omega
  -- bracket `C` by multiples of `2 ^ 149`
  have hC1 : n * S * 2 ^ 149 ≤ C * S := by
    have : 2 ^ 149 * n ≤ C := by omega
    calc n * S * 2 ^ 149 = (2 ^ 149 * n) * S := by ring
      _ ≤ C * S := Nat.mul_le_mul_right _ this
  have hC2 : C * S < (n + 1) * S * 2 ^ 149 := by
    have : C < 2 ^ 149 * (n + 1) := by rw [Nat.mul_add]; omega
    calc C * S < (2 ^ 149 * (n + 1)) * S := Nat.mul_lt_mul_of_pos_right this hS
      _ = (n + 1) * S * 2 ^ 149 := by ring
  have ha : 2 ^ 24 * (n * S) ≤ 2 ^ 24 * X + 127 * S := by
    have h4 : (2 ^ 24 * (n * S)) * 2 ^ 149 ≤ (2 ^ 24 * X + 127 * S) * 2 ^ 149 := by
      calc (2 ^ 24 * (n * S)) * 2 ^ 149 = 2 ^ 24 * (n * S * 2 ^ 149) := by ring
        _ ≤ 2 ^ 24 * (C * S) := Nat.mul_le_mul_left _ hC1
        _ ≤ 2 ^ 24 * (X * 2 ^ 149) + 127 * (S * 2 ^ 149) := hup
        _ = (2 ^ 24 * X + 127 * S) * 2 ^ 149 := by ring
    exact Nat.le_of_mul_le_mul_right h4 (by positivity)
  have hb : 2 ^ 24 * X < 2 ^ 24 * ((n + 1) * S) + 127 * S := by
    have h4 : (2 ^ 24 * X) * 2 ^ 149 < (2 ^ 24 * ((n + 1) * S) + 127 * S) * 2 ^ 149 := by
      calc (2 ^ 24 * X) * 2 ^ 149 = 2 ^ 24 * (X * 2 ^ 149) := by ring
        _ ≤ 2 ^ 24 * (C * S) + 127 * (S * 2 ^ 149) := hlo
        _ < 2 ^ 24 * ((n + 1) * S * 2 ^ 149) + 127 * (S * 2 ^ 149) :=
          Nat.add_lt_add_right (Nat.mul_lt_mul_of_pos_left hC2 (by positivity)) _
        _ = (2 ^ 24 * ((n + 1) * S) + 127 * S) * 2 ^ 149 := by ring
    exact Nat.lt_of_mul_lt_mul_right h4
  refine ⟨?_, ha, hb⟩
  by_contra hcon
  have h5 : 128 * S ≤ n * S := Nat.mul_le_mul_right _ (by omega)
  generalize n * S = nS at *
  omega

/-- Multiplication step of the round trip: for an integer `cq` of magnitude
at most 127 and a positive finite `s` with `127 s` not above the largest float,
`(float) cq * s` is finite, has the sign of `cq`, and its magnitude is within
`2 ^ (-24)` (relatively) of `|cq| s`. -/
theorem round_trip_mul (cq : Int) (s : Nat) (hs : f32_exp s ≠ 255) (hsign : f32_sign s = 0)
    (hn : cq.natAbs ≤ 127) (h127 : 127 * f32_mag s ≤ (2 ^ 24 - 1) * 2 ^ 253) :
    f32_exp (f32_mul (i32_to_f32 cq) s) ≠ 255 ∧
      (f32_sign (f32_mul (i32_to_f32 cq) s) = 1 ↔ cq < 0) ∧
      (f32_mag (f32_mul (i32_to_f32 cq) s) = cq.natAbs * f32_mag s ∨
        (2 ^ 24 * f32_mag (f32_mul (i32_to_f32 cq) s)
            ≤ 2 ^ 24 * (cq.natAbs * f32_mag s) + cq.natAbs * f32_mag s ∧
          2 ^ 24 * (cq.natAbs * f32_mag s)
            ≤ 2 ^ 24 * f32_mag (f32_mul (i32_to_f32 cq) s) + cq.natAbs * f32_mag s)) := by
  obtain ⟨hi1, hi2, hi3, -⟩ := i32_to_f32_exact cq (by omega)
  have hmax : f32_mag (i32_to_f32 cq) * f32_mag s ≤ (2 ^ 24 - 1) * 2 ^ 253 * 2 ^ 149 := by
    rw [hi2]
    calc cq.natAbs * 2 ^ 149 * f32_mag s = (cq.natAbs * f32_mag s) * 2 ^ 149 := by ring
      _ ≤ (127 * f32_mag s) * 2 ^ 149 :=
        Nat.mul_le_mul_right _ (Nat.mul_le_mul_right _ hn)
      _ ≤ (2 ^ 24 - 1) * 2 ^ 253 * 2 ^ 149 := Nat.mul_le_mul_right _ h127
  obtain ⟨h1, h2, h3⟩ := f32_mul_finite (i32_to_f32 cq) s hi1 hs hmax
  obtain ⟨-, -, -, herr⟩ := f32_round_mag _ _ (by positivity : 0 < 2 ^ 149) hmax
  rw [← h2, hi2] at herr
  refine ⟨h1, ?_, ?_⟩
  · rw [h3, hsign, ← hi3]
    rcases f32_sign_lt_two (i32_to_f32 cq) with h | h <;> rw [h] <;> simp
  · generalize f32_mag (f32_mul (i32_to_f32 cq) s) = G at *
    generalize f32_mag s = S at *
    generalize cq.natAbs = n at *
    have e1 : n * 2 ^ 149 * S = (n * S) * 2 ^ 149 := by ring
    rw [e1] at herr
    generalize n * S = nS at *
    rcases herr with ⟨hu, hl⟩ | ⟨hu, hl⟩
    · left
      have h4 : (2 * G) * 2 ^ 149 ≤ (2 * nS + 1) * 2 ^ 149 := by
        calc (2 * G) * 2 ^ 149 = 2 * (G * 2 ^ 149) := by ring
          _ ≤ 2 * (nS * 2 ^ 149) + 2 ^ 149 := hu
          _ = (2 * nS + 1) * 2 ^ 149 := by ring
      have h5 : (2 * nS) * 2 ^ 149 ≤ (2 * G + 1) * 2 ^ 149 := by
        calc (2 * nS) * 2 ^ 149 = 2 * (nS * 2 ^ 149) := by ring
          _ ≤ 2 * (G * 2 ^ 149) + 2 ^ 149 := hl
          _ = (2 * G + 1) * 2 ^ 149 := by ring
      have h6 := Nat.le_of_mul_le_mul_right h4 (by positivity)
      have h7 := Nat.le_of_mul_le_mul_right h5 (by positivity)
      omega
    · right
      constructor
      · have h4 : (2 ^ 24 * G) * 2 ^ 149 ≤ (2 ^ 24 * nS + nS) * 2 ^ 149 := by
          calc (2 ^ 24 * G) * 2 ^ 149 = 2 ^ 24 * (G * 2 ^ 149) := by ring
            _ ≤ 2 ^ 24 * (nS * 2 ^ 149) + nS * 2 ^ 149 := hu
            _ = (2 ^ 24 * nS + nS) * 2 ^ 149 := by ring
        exact Nat.le_of_mul_le_mul_right h4 (by positivity)
      · have h5 : (2 ^ 24 * nS) * 2 ^ 149 ≤ (2 ^ 24 * G + nS) * 2 ^ 149 := by
          calc (2 ^ 24 * nS) * 2 ^ 149 = 2 ^ 24 * (nS * 2 ^ 149) := by ring
            _ ≤ 2 ^ 24 * (G * 2 ^ 149) + nS * 2 ^ 149 := hl
            _ = (2 ^ 24 * G + nS) * 2 ^ 149 := by ring
        exact Nat.le_of_mul_le_mul_right h5 (by positivity)

theorem f32_toRat_of_sign_zero (v : Nat) (h : f32_sign v = 0) :
    f32_toRat v = (f32_mag v : ℚ) / 2 ^ 149 := by
  rw [f32_toRat_eq, if_neg (by omega)]

theorem f32_exp_of_isFinite (v : Nat) (h : f32_isFinite v = true) : f32_exp v ≠ 255 := by
  simpa [f32_isFinite] using h

/-- C2, refuted as stated: with scale 1.0 and zero_point 0 the value 0.75
(pattern `0x3F400000`) lies in `[-127, 127]`, is stored as code 0 and read back
as 0.0, an error of 0.75 > scale / 2; hence the claim fails. -/
theorem int8_round_trip_counterexample :
    f32_toRat 0x3F800000 = 1 ∧ f32_toRat 0x3F400000 = 3 / 4 ∧ f32_toRat 0 = 0 ∧
      tensor_set ⟨.TYPE_INT8, 1, 0x3F800000, 0, .i8 [0]⟩ 0 0x3F400000
        = .ok ⟨.TYPE_INT8, 1, 0x3F800000, 0, .i8 [0]⟩ ∧
      tensor_get ⟨.TYPE_INT8, 1, 0x3F800000, 0, .i8 [0]⟩ 0 = .ok 0 ∧
      ¬ (∀ (t : DynamicTensor) (idx x : Nat), t.wf = true → t.type = .TYPE_INT8 →
        idx < t.size → f32_isFinite t.scale = true → 0 < f32_toRat t.scale →
        f32_isFinite x = true → |f32_toRat x| ≤ 127 * f32_toRat t.scale →
        ∃ t' g, tensor_set t idx x = .ok t' ∧ tensor_get t' idx = .ok g ∧
          |f32_toRat g - f32_toRat x| ≤ f32_toRat t.scale / 2) := by
  have h1 : f32_toRat 0x3F800000 = 1 := by
    have hs : f32_scaled 0x3F800000 = 2 ^ 149 := by decide
    unfold f32_toRat
    rw [hs]
    norm_num
  have h2 : f32_toRat 0x3F400000 = 3 / 4 := by
    have hs : f32_scaled 0x3F400000 = 3 * 2 ^ 147 := by decide
    unfold f32_toRat
    rw [hs]
    norm_num
  have h0 : f32_toRat 0 = 0 := by
    have hs : f32_scaled 0 = 0 := by decide
    unfold f32_toRat
    rw [hs]
    norm_num
  have e1 : tensor_set ⟨.TYPE_INT8, 1, 0x3F800000, 0, .i8 [0]⟩ 0 0x3F400000
      = .ok ⟨.TYPE_INT8, 1, 0x3F800000, 0, .i8 [0]⟩ := by rfl
  have e2 : tensor_get ⟨.TYPE_INT8, 1, 0x3F800000, 0, .i8 [0]⟩ 0 = .ok 0 := by rfl
  refine ⟨h1, h2, h0, e1, e2, ?_⟩
  intro h
  obtain ⟨t', g, hset, hget, hbound⟩ := h ⟨.TYPE_INT8, 1, 0x3F800000, 0, .i8 [0]⟩ 0 0x3F400000
    (by decide) (by decide) (by decide) (by decide) (by rw [h1]; norm_num) (by decide)
    (by rw [h1, h2]; norm_num [abs_of_pos])
  rw [e1] at hset
  cases hset
  rw [e2] at hget
  cases hget
  rw [h0, h1, h2] at hbound
  norm_num [abs_of_pos] at hbound

/-- C2, amended: on an Int8 tensor with a finite scale > 0 such that
`127 * scale` does not exceed the largest finite float, for an index in range
and a finite `x` with `|x| ≤ 127 * scale` whose code `trunc(x / scale) +
zero_point` is not clamped (always so when `zero_point = 0`), `tensor_set`
followed by `tensor_get` completes and returns a finite value that differs from
`x` by less than `scale * (1 + 2 ^ (-16))`: the code is truncated, not rounded,
and the division and the multiplication each round to float. -/
theorem int8_round_trip (t : DynamicTensor) (idx x : Nat) (hwf : t.wf = true)
    (hty : t.type = .TYPE_INT8) (hi : idx < t.size)
    (hsfin : f32_isFinite t.scale = true) (hspos : 0 < f32_toRat t.scale)
    (h127 : 127 * f32_toRat t.scale ≤ (2 ^ 24 - 1) * 2 ^ 104)
    (hxfin : f32_isFinite x = true) (hx : |f32_toRat x| ≤ 127 * f32_toRat t.scale)
    (hclamp : ∀ c, f32_to_i32 (f32_div x t.scale) = some c →
      -128 ≤ c + t.zero_point ∧ c + t.zero_point ≤ 127) :
    ∃ t' g, tensor_set t idx x = .ok t' ∧ tensor_get t' idx = .ok g ∧
      f32_isFinite g = true ∧
      |f32_toRat g - f32_toRat x| < f32_toRat t.scale * (1 + 1 / 2 ^ 16) := by
  -- facts on the scale and on `x`, in units of `2 ^ (-149)`
  have hse := f32_exp_of_isFinite _ hsfin
  have hxe := f32_exp_of_isFinite _ hxfin
  have hss := f32_toRat_pos _ hspos
  have hsr := f32_toRat_of_sign_zero _ hss
  have hS : 0 < f32_mag t.scale := by
    rw [hsr] at hspos
    have : (0 : ℚ) < (f32_mag t.scale : ℚ) := by
      by_contra hcon
      have h0 : (f32_mag t.scale : ℚ) ≤ 0 := not_lt.1 hcon
      have : (f32_mag t.scale : ℚ) / 2 ^ 149 ≤ 0 := div_nonpos_of_nonpos_of_nonneg h0 (by positivity)
      linarith
    exact_mod_cast this
  have hS127 : 127 * f32_mag t.scale ≤ (2 ^ 24 - 1) * 2 ^ 253 := by
    rw [hsr] at h127
    have h1 : (127 * f32_mag t.scale : ℚ) ≤ (2 ^ 24 - 1) * 2 ^ 104 * 2 ^ 149 := by
      have := mul_le_mul_of_nonneg_right h127 (by positivity : (0 : ℚ) ≤ 2 ^ 149)
      have e : 127 * ((f32_mag t.scale : ℚ) / 2 ^ 149) * 2 ^ 149 = 127 * f32_mag t.scale := by
        field_simp
      rw [e] at this
      exact this
    have h2 : ((2 : ℚ) ^ 24 - 1) * 2 ^ 104 * 2 ^ 149 = (((2 ^ 24 - 1) * 2 ^ 253 : Nat) : ℚ) := by
      norm_num
    rw [h2] at h1
    exact_mod_cast h1
  have hXS : f32_mag x ≤ 127 * f32_mag t.scale := by
    rw [f32_toRat_abs, hsr] at hx
    have h1 : (f32_mag x : ℚ) ≤ 127 * f32_mag t.scale := by
      have := mul_le_mul_of_nonneg_right hx (by positivity : (0 : ℚ) ≤ 2 ^ 149)
      have e1 : (f32_mag x : ℚ) / 2 ^ 149 * 2 ^ 149 = f32_mag x := by field_simp
      have e2 : 127 * ((f32_mag t.scale : ℚ) / 2 ^ 149) * 2 ^ 149 = 127 * f32_mag t.scale := by
        field_simp
      rw [e1, e2] at this
      exact this
    exact_mod_cast h1
  -- the store
  obtain ⟨hce, hcs, hn, ha, hb⟩ := round_trip_div x t.scale hxe hse hS hXS
  have hconv := f32_to_i32_finite (f32_div x t.scale) hce (by omega)
  generalize hcq : (if f32_sign (f32_div x t.scale) = 1
      then -((f32_mag (f32_div x t.scale) / 2 ^ 149 : Nat) : Int)
      else ((f32_mag (f32_div x t.scale) / 2 ^ 149 : Nat) : Int)) = cq at hconv
  have hcl := hclamp cq hconv
  obtain ⟨p, hd, hset, hnoclamp, -, -⟩ :=
    tensor_set_int8_code t idx x cq hwf hty hi hconv (by omega)
  rw [hnoclamp hcl.1 hcl.2] at hset
  obtain ⟨p', hd', hpl', -⟩ := wf_i8 t hwf hty
  have hpp : p' = p := by
    rw [hd] at hd'
    cases hd'
    rfl
  subst hpp
  -- the load
  have hget : tensor_get { t with data := .i8 (p'.set idx (cq + t.zero_point)) } idx
      = .ok (f32_mul (i32_to_f32 cq) t.scale) := by
    unfold tensor_get
    simp only
    rw [if_neg (by omega), if_neg (by rw [hty]; decide), if_neg (by rw [hty]; decide)]
    simp only [List.getElem?_set_self (by omega : idx < p'.length)]
    have e : cq + t.zero_point - t.zero_point = cq := by ring
    rw [e]
  have hnat : cq.natAbs = f32_mag (f32_div x t.scale) / 2 ^ 149 := by
    rw [← hcq]
    split
    · rw [Int.natAbs_neg, Int.natAbs_ofNat]
    · rw [Int.natAbs_ofNat]
  obtain ⟨hge, hgs, hgm⟩ := round_trip_mul cq t.scale hse hss (by omega) hS127
  refine ⟨_, _, hset, hget, by simp [f32_isFinite, hge], ?_⟩
  -- the error, first on integers
  rw [hnat] at hgm
  have hcqneg : cq < 0 ↔ (f32_sign x = 1 ∧ 0 < f32_mag (f32_div x t.scale) / 2 ^ 149) := by
    rw [← hcq]
    rcases f32_sign_lt_two x with h0 | h1
    · have : ¬ f32_sign (f32_div x t.scale) = 1 := by rw [hcs, h0, hss]; simp
      rw [if_neg this]
      constructor
      · intro h; omega
      · intro h; omega
    · have : f32_sign (f32_div x t.scale) = 1 := by rw [hcs, h1, hss]; simp
      rw [if_pos this]
      constructor
      · intro h; exact ⟨h1, by omega⟩
      · intro h; omega
  have hkey : (2 ^ 24 : Int) * |f32_scaled (f32_mul (i32_to_f32 cq) t.scale) - f32_scaled x|
      < (2 ^ 24 + 254) * (f32_mag t.scale : Int) := by
    have hsg : f32_scaled (f32_mul (i32_to_f32 cq) t.scale)
        = if cq < 0 then -(f32_mag (f32_mul (i32_to_f32 cq) t.scale) : Int)
          else (f32_mag (f32_mul (i32_to_f32 cq) t.scale) : Int) := by
      unfold f32_scaled
      by_cases hc : cq < 0
      · rw [if_pos (hgs.2 hc), if_pos hc]
      · rw [if_neg (fun h => hc (hgs.1 h)), if_neg hc]
    have hsx : f32_scaled x = if f32_sign x = 1 then -(f32_mag x : Int) else (f32_mag x : Int) := rfl
    rw [hsg, hsx]
    generalize f32_mag (f32_mul (i32_to_f32 cq) t.scale) = G at *
    generalize f32_mag (f32_div x t.scale) / 2 ^ 149 = n at *
    generalize f32_mag x = X at *
    generalize f32_mag t.scale = S at *
    have e1 : (n + 1) * S = n * S + S := by ring
    rw [e1] at hb
    have hnS : n * S ≤ 127 * S := Nat.mul_le_mul_right _ hn
    have hzero : n = 0 → n * S = 0 := by intro h; rw [h]; simp
    generalize n * S = nS at *
    by_cases hc : cq < 0
    · rw [if_pos hc, if_pos (hcqneg.1 hc).1]
      have : |(-(G : Int)) - -(X : Int)| = |(G : Int) - X| := by
        rw [← abs_neg]
        congr 1
        ring
      rw [this]
      rcases abs_cases ((G : Int) - X) with ⟨h, _⟩ | ⟨h, _⟩ <;> rw [h] <;> omega
    · rw [if_neg hc]
      by_cases hsx1 : f32_sign x = 1
      · rw [if_pos hsx1]
        have hn0 : n = 0 := by
          by_contra hne
          exact hc (hcqneg.2 ⟨hsx1, by omega⟩)
        have hnS0 := hzero hn0
        have hG : G = 0 := by omega
        subst hG
        rcases abs_cases ((0 : Int) - -(X : Int)) with ⟨h, _⟩ | ⟨h, _⟩ <;>
          simp only [Nat.cast_zero] <;> rw [h] <;> omega
      · rw [if_neg hsx1]
        rcases abs_cases ((G : Int) - X) with ⟨h, _⟩ | ⟨h, _⟩ <;> rw [h] <;> omega
  -- back to rationals
  have hdiff : f32_toRat (f32_mul (i32_to_f32 cq) t.scale) - f32_toRat x
      = ((f32_scaled (f32_mul (i32_to_f32 cq) t.scale) - f32_scaled x : Int) : ℚ) / 2 ^ 149 := by
    unfold f32_toRat
    push_cast
    ring
  rw [hdiff, abs_div, abs_of_pos (by positivity : (0 : ℚ) < 2 ^ 149), hsr, div_lt_iff₀ (by positivity)]
  have hkq : ((2 ^ 24 : Int) : ℚ) *
      ((|f32_scaled (f32_mul (i32_to_f32 cq) t.scale) - f32_scaled x| : Int) : ℚ)
      < (((2 ^ 24 + 254) * (f32_mag t.scale : Int) : Int) : ℚ) := by
    exact_mod_cast hkey
  push_cast at hkq
  have hSq : (0 : ℚ) < (f32_mag t.scale : ℚ) := by exact_mod_cast hS
  have e3 : (f32_mag t.scale : ℚ) / 2 ^ 149 * (1 + 1 / 2 ^ 16) * 2 ^ 149
      = (f32_mag t.scale : ℚ) * (1 + 1 / 2 ^ 16) := by
    field_simp
    ring
  rw [e3, Int.cast_sub]
  have h9 : (16777216 : ℚ) * ((f32_mag t.scale : ℚ) * (1 + 1 / 2 ^ 16))
      = 16777472 * (f32_mag t.scale : ℚ) := by ring
  have h10 : (16777216 : ℚ) *
      |(f32_scaled (f32_mul (i32_to_f32 cq) t.scale) : ℚ) - (f32_scaled x : ℚ)|
      < 16777216 * ((f32_mag t.scale : ℚ) * (1 + 1 / 2 ^ 16)) := by
    rw [h9]
    linarith
  exact lt_of_mul_lt_mul_left h10 (by norm_num)

/-- Witness for the amended C2: 0.75 on a one-element tensor with scale 1.0. -/
theorem int8_round_trip_witness :
    ∃ t' g, tensor_set ⟨.TYPE_INT8, 1, 0x3F800000, 0, .i8 [0]⟩ 0 0x3F400000 = .ok t' ∧
      tensor_get t' 0 = .ok g ∧ f32_isFinite g = true ∧
      |f32_toRat g - f32_toRat 0x3F400000|
        < f32_toRat (⟨.TYPE_INT8, 1, 0x3F800000, 0, .i8 [0]⟩ : DynamicTensor).scale
          * (1 + 1 / 2 ^ 16) := by
  have h1 : f32_toRat 0x3F800000 = 1 := by
    have hs : f32_scaled 0x3F800000 = 2 ^ 149 := by decide
    unfold f32_toRat
    rw [hs]
    norm_num
  have h2 : f32_toRat 0x3F400000 = 3 / 4 := by
    have hs : f32_scaled 0x3F400000 = 3 * 2 ^ 147 := by decide
    unfold f32_toRat
    rw [hs]
    norm_num
  have hq : f32_to_i32 (f32_div 0x3F400000 0x3F800000) = some 0 := by decide
  exact int8_round_trip ⟨.TYPE_INT8, 1, 0x3F800000, 0, .i8 [0]⟩ 0 0x3F400000
    (by decide) (by decide) (by decide) (by decide) (by simp only [h1]; norm_num)
    (by simp only [h1]; norm_num) (by decide)
    (by simp only [h1, h2]; norm_num [abs_of_pos])
    (by
      intro c hc
      simp only [hq, Option.some.injEq] at hc
      subst hc
      decide)

/-- The bound of the amended C2 cannot be lowered to `scale`: with scale
`0x3C06326B` and `x = 0x3F8419A1` the code is 125 and the value read back,
`0x3F830D3C`, is further than `scale` below `x`. -/
theorem int8_round_trip_exceeds_scale :
    tensor_set ⟨.TYPE_INT8, 1, 0x3C06326B, 0, .i8 [0]⟩ 0 0x3F8419A1
        = .ok ⟨.TYPE_INT8, 1, 0x3C06326B, 0, .i8 [125]⟩ ∧
      tensor_get ⟨.TYPE_INT8, 1, 0x3C06326B, 0, .i8 [125]⟩ 0 = .ok 0x3F830D3C ∧
      f32_scaled 0x3C06326B < f32_scaled 0x3F8419A1 - f32_scaled 0x3F830D3C := by
  refine ⟨by rfl, by rfl, by decide⟩

/-- The amended C2 needs `127 * scale` to be finite: with scale `0x7D23D70A`
and `x` the largest finite float `0x7F7FFFFF` (about 25 times the scale) the
code is 25 and the value read back is `+infinity`. -/
theorem int8_round_trip_overflow :
    tensor_set ⟨.TYPE_INT8, 1, 0x7D23D70A, 0, .i8 [0]⟩ 0 0x7F7FFFFF
        = .ok ⟨.TYPE_INT8, 1, 0x7D23D70A, 0, .i8 [25]⟩ ∧
      tensor_get ⟨.TYPE_INT8, 1, 0x7D23D70A, 0, .i8 [25]⟩ 0 = .ok 0x7F800000 ∧
      f32_mag 0x7F7FFFFF ≤ 127 * f32_mag 0x7D23D70A := by
  refine ⟨by rfl, by rfl, by decide⟩

/-! ## Further claims on the codec -/

theorem and_0xFC00 (x : Nat) : x &&& 0xFC00 = (x / 2 ^ 10 % 2 ^ 6) * 2 ^ 10 := by
  simpa using and_field x 10 6

theorem and_0xFFFFE000 (x : Nat) : x &&& 0xFFFFE000 = (x / 2 ^ 13 % 2 ^ 19) * 2 ^ 13 := by
  simpa using and_field x 13 19

/-- C14: with sign bit `s`, exponent field `e` and mantissa `m` of the input,
`f32_to_f16` returns `(s << 15) | ((e - 112) << 10) | (m >> 13)` when
`113 ≤ e ≤ 142`, and `(s << 15) | 0x7C00` when `e ≥ 143` (magnitudes of at
least 65536, infinities, NaNs). -/
theorem f32_to_f16_pack (b : Nat) (hb : b < 2 ^ 32) :
    (113 ≤ f32_exp b → f32_exp b ≤ 142 →
        f32_to_f16 b
          = (f32_sign b <<< 15) ||| ((f32_exp b - 112) <<< 10) ||| (f32_mant b >>> 13)) ∧
      (143 ≤ f32_exp b → f32_to_f16 b = (f32_sign b <<< 15) ||| 0x7C00) := by
  have hf := f32_to_f16_fields b
  rw [Nat.mod_eq_of_lt hb] at hf
  have hs := f32_sign_lt_two b
  have hm := f32_mant_lt b
  constructor
  · intro h1 h2
    rw [if_neg (by omega), if_neg (by omega)] at hf
    rw [hf, Nat.shiftLeft_eq, Nat.shiftLeft_eq, Nat.shiftRight_eq_div_pow]
    have h7 : f32_sign b * 2 ^ 15 = (f32_sign b * 2 ^ 5) * 2 ^ 10 := by ring
    have h9 : f32_sign b * 2 ^ 15 ||| (f32_exp b - 112) * 2 ^ 10
        = (f32_sign b * 2 ^ 5 + (f32_exp b - 112)) * 2 ^ 10 := by
      rw [or_field (f32_sign b) ((f32_exp b - 112) * 2 ^ 10) 15 (by omega)]
      ring
    rw [h9, or_field _ (f32_mant b / 2 ^ 13) 10 (by omega)]
    ring
  · intro h1
    rw [if_neg (by omega), if_pos h1] at hf
    rw [hf, Nat.shiftLeft_eq, or_field (f32_sign b) 0x7C00 15 (by norm_num)]

/-- Witness for C14: 1.5 (pattern `0x3FC00000`) and `+infinity`. -/
theorem f32_to_f16_pack_witness :
    f32_to_f16 0x3FC00000
        = (f32_sign 0x3FC00000 <<< 15) ||| ((f32_exp 0x3FC00000 - 112) <<< 10)
          ||| (f32_mant 0x3FC00000 >>> 13) ∧
      f32_to_f16 0x7F800000 = (f32_sign 0x7F800000 <<< 15) ||| 0x7C00 :=
  ⟨(f32_to_f16_pack 0x3FC00000 (by decide)).1 (by decide) (by decide),
    (f32_to_f16_pack 0x7F800000 (by decide)).2 (by decide)⟩

/-- Fields of a float32 pattern with its 13 low mantissa bits cleared. -/
theorem f32_truncated_fields (b : Nat) :
    f32_sign (b - b % 2 ^ 13) = f32_sign b ∧ f32_exp (b - b % 2 ^ 13) = f32_exp b ∧
      f32_mant (b - b % 2 ^ 13) = f32_mant b - f32_mant b % 2 ^ 13 := by
  unfold f32_sign f32_exp f32_mant
  omega

/-- The round trip through half precision on the fields: exponent field in
113..142 is kept and the mantissa loses its 13 low bits. -/
theorem f16_roundtrip_eq (b : Nat) (hb : b < 2 ^ 32) (h1 : 113 ≤ f32_exp b)
    (h2 : f32_exp b ≤ 142) : f16_to_f32 (f32_to_f16 b) = b - b % 2 ^ 13 := by
  rw [f16_to_f32_fields, f32_to_f16_fields]
  simp only [Nat.mod_eq_of_lt hb]
  rw [if_neg (by omega), if_neg (by omega)]
  unfold f32_exp f32_sign f32_mant f16_sign f16_exp f16_mant at *
  have hlt : b / 2 ^ 31 % 2 * 2 ^ 15 + (b / 2 ^ 23 % 256 - 112) * 2 ^ 10
      + b % 2 ^ 23 / 2 ^ 13 < 2 ^ 16 := by omega
  rw [Nat.mod_eq_of_lt hlt]
  have e1 : (b / 2 ^ 31 % 2 * 2 ^ 15 + (b / 2 ^ 23 % 256 - 112) * 2 ^ 10
      + b % 2 ^ 23 / 2 ^ 13) / 2 ^ 15 % 2 = b / 2 ^ 31 % 2 := by omega
  have e2 : (b / 2 ^ 31 % 2 * 2 ^ 15 + (b / 2 ^ 23 % 256 - 112) * 2 ^ 10
      + b % 2 ^ 23 / 2 ^ 13) / 2 ^ 10 % 32 = b / 2 ^ 23 % 256 - 112 := by omega
  have e3 : (b / 2 ^ 31 % 2 * 2 ^ 15 + (b / 2 ^ 23 % 256 - 112) * 2 ^ 10
      + b % 2 ^ 23 / 2 ^ 13) % 2 ^ 10 = b % 2 ^ 23 / 2 ^ 13 := by omega
  rw [e1, e2, e3, if_neg (by omega)]
  omega

/-- C15: for a float32 pattern `b` with exponent field `e` in 113..142 the
round trip `f16_to_f32 (f32_to_f16 b)` is `b` with its 13 low mantissa bits
cleared (`b AND 0xFFFFE000`): the sign is kept, the magnitude does not grow,
and the loss is less than one half-precision unit in the last place,
`2 ^ (e - 127 - 10)`. -/
theorem f16_roundtrip_truncates (b : Nat) (hb : b < 2 ^ 32) (h1 : 113 ≤ f32_exp b)
    (h2 : f32_exp b ≤ 142) :
    f16_to_f32 (f32_to_f16 b) = b &&& 0xFFFFE000 ∧
      f32_sign (f16_to_f32 (f32_to_f16 b)) = f32_sign b ∧
      |f32_toRat (f16_to_f32 (f32_to_f16 b))| ≤ |f32_toRat b| ∧
      |f32_toRat b - f32_toRat (f16_to_f32 (f32_to_f16 b))|
        < (2 : ℚ) ^ ((f32_exp b : ℤ) - 127 - 10) := by
  have hrt := f16_roundtrip_eq b hb h1 h2
  obtain ⟨hs, he, hm⟩ := f32_truncated_fields b
  have hmant := f32_mant_lt b
  rw [hrt]
  have hmagb : f32_mag b = (2 ^ 23 + f32_mant b) * 2 ^ (f32_exp b - 1) := by
    unfold f32_mag
    rw [if_neg (by omega)]
  have hmagr : f32_mag (b - b % 2 ^ 13)
      = (2 ^ 23 + (f32_mant b - f32_mant b % 2 ^ 13)) * 2 ^ (f32_exp b - 1) := by
    unfold f32_mag
    rw [he, hm, if_neg (by omega)]
  have hle : f32_mag (b - b % 2 ^ 13) ≤ f32_mag b := by
    rw [hmagb, hmagr]
    exact Nat.mul_le_mul_right _ (by omega)
  have hdiff : f32_mag b - f32_mag (b - b % 2 ^ 13)
      = (f32_mant b % 2 ^ 13) * 2 ^ (f32_exp b - 1) := by
    rw [hmagb, hmagr, ← Nat.sub_mul]
    congr 1
    omega
  have hlt : f32_mag b - f32_mag (b - b % 2 ^ 13) < 2 ^ (f32_exp b + 12) := by
    rw [hdiff]
    have e : 2 ^ (f32_exp b + 12) = 2 ^ 13 * 2 ^ (f32_exp b - 1) := by
      rw [← pow_add]
      congr 1
      omega
    rw [e]
    exact Nat.mul_lt_mul_of_pos_right (Nat.mod_lt _ (by norm_num)) (by positivity)
  refine ⟨?_, hs, ?_, ?_⟩
  · rw [and_0xFFFFE000]
    omega
  · rw [f32_toRat_abs, f32_toRat_abs]
    exact div_le_div_of_nonneg_right (by exact_mod_cast hle) (by positivity)
  · have hP : (0 : ℚ) < 2 ^ 149 := by positivity
    have hval : f32_toRat b - f32_toRat (b - b % 2 ^ 13)
        = (if f32_sign b = 1 then (-1 : ℚ) else 1)
          * (((f32_mag b - f32_mag (b - b % 2 ^ 13) : Nat) : ℚ) / 2 ^ 149) := by
      rw [f32_toRat_sign_mul b, f32_toRat_sign_mul (b - b % 2 ^ 13), hs, Nat.cast_sub hle]
      ring
    have habs : |f32_toRat b - f32_toRat (b - b % 2 ^ 13)|
        = ((f32_mag b - f32_mag (b - b % 2 ^ 13) : Nat) : ℚ) / 2 ^ 149 := by
      rw [hval, abs_mul, abs_of_nonneg (by positivity :
        (0 : ℚ) ≤ ((f32_mag b - f32_mag (b - b % 2 ^ 13) : Nat) : ℚ) / 2 ^ 149)]
      split <;> simp
    have hpow : (2 : ℚ) ^ ((f32_exp b : ℤ) - 127 - 10) = (2 : ℚ) ^ (f32_exp b + 12) / 2 ^ 149 := by
      have e : ((f32_exp b : ℤ) - 127 - 10) = ((f32_exp b + 12 : Nat) : ℤ) - ((149 : Nat) : ℤ) := by
        push_cast
        ring
      rw [e, zpow_sub₀ (by norm_num : (2 : ℚ) ≠ 0), zpow_natCast, zpow_natCast]
    rw [habs, hpow]
    apply div_lt_div_of_pos_right _ hP
    exact_mod_cast hlt

/-- Witness for C15: 0.1 (pattern `0x3DCCCCCD`) comes back as `0x3DCCC000`. -/
theorem f16_roundtrip_truncates_witness :
    f16_to_f32 (f32_to_f16 0x3DCCCCCD) = 0x3DCCCCCD &&& 0xFFFFE000 :=
  (f16_roundtrip_truncates 0x3DCCCCCD (by decide) (by decide) (by decide)).1

/-- What `f16_to_f32` does with a zero exponent field: the mantissa bits are
moved into the float32 mantissa and the float32 exponent field stays zero, so
the result is a signed zero only when the ten mantissa bits are zero;
otherwise it is the float32 subnormal of magnitude `m * 2 ^ 13` units of
`2 ^ (-149)`. -/
theorem f16_to_f32_zero_exp (h : Nat) (hh : h < 2 ^ 16) (he : f16_exp h = 0) :
    f16_to_f32 h = f16_sign h * 2 ^ 31 + f16_mant h * 2 ^ 13 ∧
      f32_exp (f16_to_f32 h) = 0 ∧ f32_mag (f16_to_f32 h) = f16_mant h * 2 ^ 13 ∧
      (f16_mant h = 0 → f16_sign h = 0 → f16_to_f32 h = 0x00000000) ∧
      (f16_mant h = 0 → f16_sign h = 1 → f16_to_f32 h = 0x80000000) := by
  have hf := f16_to_f32_fields h
  rw [Nat.mod_eq_of_lt hh, he] at hf
  simp only [if_true, Nat.zero_mul, Nat.add_zero] at hf
  have hs : f16_sign h < 2 := by unfold f16_sign; omega
  have hm : f16_mant h < 2 ^ 10 := by unfold f16_mant; omega
  have hexp : f32_exp (f16_sign h * 2 ^ 31 + f16_mant h * 2 ^ 13) = 0 := by
    unfold f32_exp
    omega
  have hmant : f32_mant (f16_sign h * 2 ^ 31 + f16_mant h * 2 ^ 13) = f16_mant h * 2 ^ 13 := by
    unfold f32_mant
    omega
  refine ⟨hf, by rw [hf]; exact hexp, ?_, ?_, ?_⟩
  · rw [hf]
    unfold f32_mag
    rw [if_pos hexp, hmant]
  · intro h0 hs0
    rw [hf, h0, hs0]
    norm_num
  · intro h0 hs1
    rw [hf, h0, hs1]
    norm_num

/-- C16 at a failing input: the smallest half subnormal `0x0001` has exponent
field zero and a clear sign bit, and `f16_to_f32` returns `0x00002000`, a
nonzero float32 (magnitude `2 ^ 13` units of `2 ^ (-149)`), not `0x00000000`;
`0x8001` gives `0x80002000`. -/
theorem f16_to_f32_subnormal_not_zero :
    f16_exp 0x0001 = 0 ∧ f16_sign 0x0001 = 0 ∧ f16_to_f32 0x0001 = 0x00002000 ∧
      f32_mag 0x00002000 = 2 ^ 13 ∧ f16_to_f32 0x8001 = 0x80002000 ∧
      ¬ (∀ h : Nat, h < 2 ^ 16 → f16_exp h = 0 →
        (f16_sign h = 0 → f16_to_f32 h = 0x00000000) ∧
        (f16_sign h = 1 → f16_to_f32 h = 0x80000000)) := by
  refine ⟨by decide, by decide, by decide, by decide, by decide, ?_⟩
  intro hall
  have := (hall 0x0001 (by decide) (by decide)).1 (by decide)
  revert this
  decide

/-- C19: encoding the decoded value gives back `h` when the exponent field of
`h` is in 1..30 or its mantissa is zero; for every other `h` (a half subnormal
or a half NaN) it gives `h` with the mantissa bits cleared, `h AND 0xFC00`,
which differs from `h`. -/
theorem f16_encode_decode (h : Nat) (hh : h < 2 ^ 16) :
    (((1 ≤ f16_exp h ∧ f16_exp h ≤ 30) ∨ f16_mant h = 0) →
        f32_to_f16 (f16_to_f32 h) = h) ∧
      (¬ ((1 ≤ f16_exp h ∧ f16_exp h ≤ 30) ∨ f16_mant h = 0) →
        f32_to_f16 (f16_to_f32 h) = h &&& 0xFC00 ∧ f32_to_f16 (f16_to_f32 h) ≠ h) := by
  have hd := f16_to_f32_fields h
  rw [Nat.mod_eq_of_lt hh] at hd
  have hs : f16_sign h < 2 := by unfold f16_sign; omega
  have he : f16_exp h < 32 := by unfold f16_exp; omega
  have hm : f16_mant h < 2 ^ 10 := by unfold f16_mant; omega
  have hsplit : h = f16_sign h * 2 ^ 15 + f16_exp h * 2 ^ 10 + f16_mant h := by
    unfold f16_sign f16_exp f16_mant
    omega
  have hclr : h &&& 0xFC00 = f16_sign h * 2 ^ 15 + f16_exp h * 2 ^ 10 := by
    rw [and_0xFC00]
    unfold f16_sign f16_exp
    omega
  have henc := f32_to_f16_fields (f16_to_f32 h)
  generalize f16_sign h = s at *
  generalize f16_exp h = e at *
  generalize f16_mant h = m at *
  have hlt : f16_to_f32 h < 2 ^ 32 := by
    rw [hd]
    split <;> omega
  rw [Nat.mod_eq_of_lt hlt] at henc
  have hsign : f32_sign (f16_to_f32 h) = s := by
    rw [hd]
    unfold f32_sign
    split <;> omega
  have hexp : f32_exp (f16_to_f32 h) = if e = 0 then 0 else e + 112 := by
    rw [hd]
    unfold f32_exp
    split <;> omega
  have hmant : f32_mant (f16_to_f32 h) = m * 2 ^ 13 := by
    rw [hd]
    unfold f32_mant
    split <;> omega
  rw [hsign, hexp, hmant] at henc
  rw [henc, hclr]
  by_cases h0 : e = 0
  · subst h0
    simp only [if_true, Nat.zero_le]
    constructor
    · intro hc
      omega
    · intro hc
      omega
  · simp only [h0, if_false]
    by_cases h31 : e = 31
    · subst h31
      rw [if_neg (by omega), if_pos (by omega)]
      constructor
      · intro hc
        omega
      · intro hc
        omega
    · rw [if_neg (by omega), if_neg (by omega)]
      constructor
      · intro hc
        omega
      · intro hc
        omega

/-- Witness for C19: `0x3C00` (1.0) is a fixed point, the subnormal `0x0001`
and the NaN `0x7E00` lose their mantissa bits. -/
theorem f16_encode_decode_witness :
    f32_to_f16 (f16_to_f32 0x3C00) = 0x3C00 ∧
      f32_to_f16 (f16_to_f32 0x0001) = 0x0001 &&& 0xFC00 ∧
      f32_to_f16 (f16_to_f32 0x7E00) = 0x7E00 &&& 0xFC00 :=
  ⟨(f16_encode_decode 0x3C00 (by decide)).1 (by decide),
    ((f16_encode_decode 0x0001 (by decide)).2 (by decide)).1,
    ((f16_encode_decode 0x7E00 (by decide)).2 (by decide)).1⟩

/-- Store then load on a Float16 tensor, at an index in range. -/
theorem set_get_f16 (t : DynamicTensor) (idx v : Nat) (hwf : t.wf = true)
    (hty : t.type = .TYPE_F16) (hi : idx < t.size) :
    ∃ t', tensor_set t idx v = .ok t' ∧
      tensor_get t' idx = .ok (f16_to_f32 (f32_to_f16 v)) := by
  obtain ⟨p, hd, hl⟩ := wf_f16 t hwf hty
  have hne : t.type ≠ .TYPE_F32 := by rw [hty]; decide
  refine ⟨{ t with data := .f16 (p.set idx (f32_to_f16 v)) }, ?_, ?_⟩
  · unfold tensor_set
    rw [if_neg (by omega), if_neg hne, if_pos hty, hd]
    simp only
    rw [if_pos (by omega)]
  · unfold tensor_get
    simp only
    rw [if_neg (by omega), if_neg hne, if_pos hty]
    simp [List.getElem?_set_self, hl, hi]

/-- C20: the float32 returned by `f16_to_f32` has an exponent field of at most
143, so it is never an infinity or a NaN; the half infinities `0x7C00` and
`0xFC00` decode to `0x47800000` (65536.0) and `0xC7800000` (-65536.0); hence on
a Float16 tensor `tensor_get` after `tensor_set` of an infinite value returns
one of these two finite values. -/
theorem f16_to_f32_finite (h : Nat) :
    f32_exp (f16_to_f32 h) ≤ 143 ∧ f32_isFinite (f16_to_f32 h) = true ∧
      f32_isInf (f16_to_f32 h) = false ∧ f32_isNaN (f16_to_f32 h) = false ∧
      f16_to_f32 0x7C00 = 0x47800000 ∧ f16_to_f32 0xFC00 = 0xC7800000 ∧
      f32_scaled 0x47800000 = 65536 * 2 ^ 149 ∧ f32_scaled 0xC7800000 = -65536 * 2 ^ 149 ∧
      ∀ (t : DynamicTensor) (idx v : Nat), t.wf = true → t.type = .TYPE_F16 →
        idx < t.size → v < 2 ^ 32 → f32_isInf v = true →
        ∃ t' g, tensor_set t idx v = .ok t' ∧ tensor_get t' idx = .ok g ∧
          f32_isFinite g = true ∧
          (f32_sign v = 0 → g = 0x47800000) ∧ (f32_sign v = 1 → g = 0xC7800000) := by
  have hexp : f32_exp (f16_to_f32 h) ≤ 143 := by
    have hd := f16_to_f32_fields h
    have hb : h % 2 ^ 16 < 2 ^ 16 := Nat.mod_lt _ (by norm_num)
    generalize h % 2 ^ 16 = b at *
    have hs : f16_sign b < 2 := by unfold f16_sign; omega
    have he : f16_exp b < 32 := by unfold f16_exp; omega
    have hm : f16_mant b < 2 ^ 10 := by unfold f16_mant; omega
    rw [hd]
    unfold f32_exp
    split <;> omega
  have hfl := f32_finite_flags (f16_to_f32 h) (by omega)
  refine ⟨hexp, hfl.2.2, hfl.2.1, hfl.1, by decide, by decide, by decide, by decide, ?_⟩
  intro t idx v hwf hty hi hv hinf
  obtain ⟨t', hset, hget⟩ := set_get_f16 t idx v hwf hty hi
  have he255 : f32_exp v = 255 := by
    simp only [f32_isInf, Bool.and_eq_true, beq_iff_eq] at hinf
    exact hinf.1
  have henc : f32_to_f16 v = f32_sign v * 2 ^ 15 + 0x7C00 := by
    have hf := f32_to_f16_fields v
    rw [Nat.mod_eq_of_lt hv, if_neg (by omega), if_pos (by omega)] at hf
    exact hf
  refine ⟨t', _, hset, hget, ?_, ?_, ?_⟩
  · have hexp' : f32_exp (f16_to_f32 (f32_to_f16 v)) ≤ 143 := by
      have hd := f16_to_f32_fields (f32_to_f16 v)
      have hb : f32_to_f16 v % 2 ^ 16 < 2 ^ 16 := Nat.mod_lt _ (by norm_num)
      generalize f32_to_f16 v % 2 ^ 16 = b at *
      have hs : f16_sign b < 2 := by unfold f16_sign; omega
      have he : f16_exp b < 32 := by unfold f16_exp; omega
      have hm : f16_mant b < 2 ^ 10 := by unfold f16_mant; omega
      rw [hd]
      unfold f32_exp
      split <;> omega
    exact (f32_finite_flags _ (by omega)).2.2
  · intro hs0
    rw [henc, hs0]
    decide
  · intro hs1
    rw [henc, hs1]
    decide

/-- Witness for C20: `+infinity` stored in a one-element Float16 tensor. -/
theorem f16_to_f32_finite_witness :
    ∃ t' g, tensor_set ⟨.TYPE_F16, 1, 0x3F800000, 0, .f16 [0]⟩ 0 0x7F800000 = .ok t' ∧
      tensor_get t' 0 = .ok g ∧ f32_isFinite g = true ∧
      (f32_sign 0x7F800000 = 0 → g = 0x47800000) ∧
      (f32_sign 0x7F800000 = 1 → g = 0xC7800000) :=
  (f16_to_f32_finite 0).2.2.2.2.2.2.2.2 ⟨.TYPE_F16, 1, 0x3F800000, 0, .f16 [0]⟩ 0 0x7F800000
    (by decide) (by decide) (by decide) (by decide) (by decide)

/-! ## Further claims on the quantizer -/

/-- C11: when the source is not Float32 or the destination is not Int8,
`quantize_f32_to_int8` completes and returns the destination as it was
(scale, zero_point and every element unchanged); the source is only an input
of the embedding and is never rewritten. -/
theorem quantize_type_mismatch (src dst : DynamicTensor)
    (h : src.type ≠ .TYPE_F32 ∨ dst.type ≠ .TYPE_INT8) :
    quantize_f32_to_int8 src dst = .ok dst ∧ quantize_assign src dst = .ok dst := by
  constructor
  · unfold quantize_f32_to_int8
    rw [if_pos h]
  · unfold quantize_assign
    rw [if_pos h]

/-- Witness for C11: a Float16 source. -/
theorem quantize_type_mismatch_witness :
    quantize_f32_to_int8 ⟨.TYPE_F16, 1, 0x3F800000, 0, .f16 [0x3C00]⟩
        ⟨.TYPE_INT8, 1, 0x3F800000, 0, .i8 [7]⟩
      = .ok ⟨.TYPE_INT8, 1, 0x3F800000, 0, .i8 [7]⟩ :=
  (quantize_type_mismatch ⟨.TYPE_F16, 1, 0x3F800000, 0, .f16 [0x3C00]⟩
    ⟨.TYPE_INT8, 1, 0x3F800000, 0, .i8 [7]⟩ (Or.inl (by decide))).1

/-- The second loop keeps the length of the destination buffer. -/
theorem quantize_store_loop_length (p : List Nat) (size scale : Nat) (fuel i : Nat)
    (out out' : List Int) (h : quantize_store_loop p size scale fuel i out = .ok out') :
    out'.length = out.length := by
  induction fuel generalizing i out with
  | zero =>
    unfold quantize_store_loop at h
    cases h
  | succ f ih =>
    unfold quantize_store_loop at h
    by_cases h1 : i < size
    · rw [if_pos h1] at h
      cases hp : p[i]? with
      | none =>
        rw [hp] at h
        cases h
      | some v =>
        rw [hp] at h
        simp only at h
        cases hq : f32_to_i32 (f32_div v scale) with
        | none =>
          rw [hq] at h
          cases h
        | some q =>
          rw [hq] at h
          simp only at h
          by_cases h2 : i < out.length
          · rw [if_pos h2] at h
            have := ih _ _ h
            simpa using this
          · rw [if_neg h2] at h
            cases h
    · rw [if_neg h1] at h
      cases h
      rfl

/-- Every completing `tensor_set` keeps the fields and the buffer length. -/
theorem tensor_set_fields (t t' : DynamicTensor) (idx val : Nat)
    (h : tensor_set t idx val = .ok t') :
    t'.type = t.type ∧ t'.size = t.size ∧ t'.scale = t.scale ∧
      t'.zero_point = t.zero_point ∧ t'.data.length = t.data.length := by
  obtain ⟨ty, sz, sc, zp, d⟩ := t
  unfold tensor_set at h
  simp only at h
  split_ifs at h with h1 h2 h3
  · cases h
    simp
  · cases d <;> simp only at h
    · split_ifs at h
      · cases h
        exact ⟨rfl, rfl, rfl, rfl, by simp [TensorData.length]⟩
    all_goals cases h
  · cases d <;> simp only at h
    · cases h
    · split_ifs at h
      · cases h
        exact ⟨rfl, rfl, rfl, rfl, by simp [TensorData.length]⟩
    · cases h
  · split at h
    · cases h
    · split_ifs at h
      cases d <;> simp only at h
      · cases h
      · cases h
      · split_ifs at h
        cases h
        exact ⟨rfl, rfl, rfl, rfl, by simp [TensorData.length]⟩

/-- Every completing `quantize_f32_to_int8` keeps type, size and buffer length
of the destination, leaves `zero_point = 0` or the destination untouched, and
leaves a destination that is not Int8 untouched. -/
theorem quantize_dst_fields (src t t' : DynamicTensor)
    (h : quantize_f32_to_int8 src t = .ok t') :
    t'.type = t.type ∧ t'.size = t.size ∧ t'.data.length = t.data.length ∧
      (t'.zero_point = 0 ∨ t' = t) ∧ (t.type ≠ .TYPE_INT8 → t' = t) := by
  unfold quantize_f32_to_int8 at h
  split_ifs at h with h1
  · cases h
    exact ⟨rfl, rfl, rfl, Or.inr rfl, fun _ => rfl⟩
  · have hty : t.type = .TYPE_INT8 := by
      by_contra hne
      exact h1 (Or.inr hne)
    split at h
    · rename_i p out hsd hdd
      split at h
      · cases h
      · simp only at h
        split at h
        · cases h
        · rename_i out' hloop
          cases h
          have hl := quantize_store_loop_length _ _ _ _ _ _ _ hloop
          refine ⟨rfl, rfl, ?_, Or.inl rfl, fun hne => absurd hty hne⟩
          rw [hdd]
          simpa [TensorData.length] using hl
    · cases h

/-- C13: `create_tensor` returns, for every length below `2 ^ 16` and every
type, a tensor of that length and type with scale 1.0 (`0x3F800000`),
zero_point 0 and a buffer of exactly `length` elements; every tensor reached
from it by completed `tensor_set` and `quantize_f32_to_int8` calls keeps type,
length, buffer length and `zero_point = 0`, and keeps scale 1.0 unless its
type is Int8. -/
theorem create_tensor_invariant (n : Nat) (ty : TensorType) (init : Nat → Nat)
    (hn : n < 2 ^ 16) :
    (create_tensor n ty init).size = n ∧ (create_tensor n ty init).type = ty ∧
      (create_tensor n ty init).scale = 0x3F800000 ∧
      (create_tensor n ty init).zero_point = 0 ∧
      (create_tensor n ty init).data.length = n ∧
      (create_tensor n ty init).wf = true ∧ f32_scaled 0x3F800000 = 1 * 2 ^ 149 ∧
      ∀ t, Reachable (create_tensor n ty init) t →
        t.type = ty ∧ t.size = n ∧ t.data.length = n ∧ t.zero_point = 0 ∧
        (ty ≠ .TYPE_INT8 → t.scale = 0x3F800000) := by
  have hsize : (create_tensor n ty init).size = n := by
    unfold create_tensor
    simp only
    exact Nat.mod_eq_of_lt hn
  have htype : (create_tensor n ty init).type = ty := rfl
  have hscale : (create_tensor n ty init).scale = 0x3F800000 := rfl
  have hzp : (create_tensor n ty init).zero_point = 0 := rfl
  have hlen : (create_tensor n ty init).data.length = n := by
    unfold create_tensor
    simp only [Nat.mod_eq_of_lt hn]
    cases ty <;> simp [TensorData.length]
  have hwf : (create_tensor n ty init).wf = true := by
    have h8 : ∀ k : Nat, -128 ≤ toInt8 (k : Int) ∧ toInt8 (k : Int) ≤ 127 := by
      intro k
      unfold toInt8
      omega
    have hn' : n < 65536 := hn
    unfold DynamicTensor.wf
    rw [hsize, hscale, hzp, hlen, htype]
    unfold create_tensor
    simp only [Nat.mod_eq_of_lt hn]
    cases ty <;>
      simp [TensorData.matches, TensorData.inRange, hn', Nat.mod_lt, h8]
  refine ⟨hsize, htype, hscale, hzp, hlen, hwf, by decide, ?_⟩
  intro t hr
  induction hr with
  | start => exact ⟨htype, hsize, hlen, hzp, fun _ => hscale⟩
  | set t t' idx val _ hset ih =>
    obtain ⟨h1, h2, h3, h4, h5⟩ := tensor_set_fields t t' idx val hset
    obtain ⟨i1, i2, i3, i4, i5⟩ := ih
    exact ⟨by rw [h1, i1], by rw [h2, i2], by rw [h5, i3], by rw [h4, i4],
      fun hne => by rw [h3]; exact i5 hne⟩
  | quantize_dst src t t' _ hq ih =>
    obtain ⟨h1, h2, h3, h4, h5⟩ := quantize_dst_fields src t t' hq
    obtain ⟨i1, i2, i3, i4, i5⟩ := ih
    refine ⟨by rw [h1, i1], by rw [h2, i2], by rw [h3, i3], ?_, ?_⟩
    · rcases h4 with h | h
      · exact h
      · rw [h]; exact i4
    · intro hne
      rw [h5 (by rw [i1]; exact hne)]
      exact i5 hne
  | quantize_src t dst dst' _ _ ih => exact ih

/-- Witness for C13: the three-element Float32 tensor created over zeroed
memory, after `tensor_set` of `3.0` at index 1. -/
theorem create_tensor_invariant_witness :
    (create_tensor 3 .TYPE_F32 (fun _ => 0)).data.length = 3 ∧
      Reachable (create_tensor 3 .TYPE_F32 (fun _ => 0))
        ⟨.TYPE_F32, 3, 0x3F800000, 0, .f32 [0, 0x40400000, 0]⟩ ∧
      (⟨.TYPE_F32, 3, 0x3F800000, 0, .f32 [0, 0x40400000, 0]⟩ : DynamicTensor).data.length = 3 ∧
      (⟨.TYPE_F32, 3, 0x3F800000, 0, .f32 [0, 0x40400000, 0]⟩ : DynamicTensor).zero_point = 0 :=
  ⟨(create_tensor_invariant 3 .TYPE_F32 (fun _ => 0) (by decide)).2.2.2.2.1,
   Reachable.set _ _ 1 0x40400000 Reachable.start (by rfl),
   ((create_tensor_invariant 3 .TYPE_F32 (fun _ => 0) (by decide)).2.2.2.2.2.2.2 _
      (Reachable.set _ _ 1 0x40400000 Reachable.start (by rfl))).2.2.1,
   ((create_tensor_invariant 3 .TYPE_F32 (fun _ => 0) (by decide)).2.2.2.2.2.2.2 _
      (Reachable.set _ _ 1 0x40400000 Reachable.start (by rfl))).2.2.2.1⟩

theorem exact_max_step (m v : ℚ) :
    (if (if v < 0 then -v else v) > m then (if v < 0 then -v else v) else m) = max m |v| := by
  have habs : (if v < 0 then -v else v) = |v| := by
    split_ifs with h
    · rw [abs_of_neg h]
    · rw [abs_of_nonneg (not_lt.mp h)]
  rw [habs]
  split_ifs with h
  · rw [max_eq_right (le_of_lt h)]
  · rw [max_eq_left (not_lt.mp h)]

theorem exact_max_loop_eq (p : List ℚ) (hlen : p.length < 2 ^ 16)
    (fuel i : Nat) (m : ℚ) (hi : i ≤ p.length) (hfuel : p.length - i < fuel) :
    exact_max_loop p p.length fuel i m
      = .ok ((p.drop i).foldl (fun m v => max m |v|) m) := by
  induction fuel generalizing i m with
  | zero => omega
  | succ f ih =>
    unfold exact_max_loop
    by_cases hlt : i < p.length
    · rw [if_pos hlt, List.getElem?_eq_getElem hlt]
      simp only
      rw [exact_max_step, Nat.mod_eq_of_lt (by omega), ih (i + 1) _ (by omega) (by omega)]
      rw [List.drop_eq_getElem_cons hlt]
      rfl
    · rw [if_neg hlt]
      have : i = p.length := by omega
      subst this
      simp

theorem exact_foldl_max (p : List ℚ) (m : ℚ) :
    m ≤ p.foldl (fun m v => max m |v|) m ∧
      (∀ v ∈ p, |v| ≤ p.foldl (fun m v => max m |v|) m) ∧
      (p.foldl (fun m v => max m |v|) m = m ∨
        ∃ v ∈ p, p.foldl (fun m v => max m |v|) m = |v|) := by
  induction p generalizing m with
  | nil => simp
  | cons a l ih =>
    simp only [List.foldl_cons]
    obtain ⟨h1, h2, h3⟩ := ih (max m |a|)
    refine ⟨le_trans (le_max_left _ _) h1, ?_, ?_⟩
    · intro v hv
      rcases List.mem_cons.mp hv with rfl | hv
      · exact le_trans (le_max_right _ _) h1
      · exact h2 v hv
    · rcases h3 with h | ⟨v, hv, h⟩
      · rcases max_choice m |a| with hm | hm
        · left
          rw [h, hm]
        · right
          exact ⟨a, List.mem_cons_self _ _, by rw [h, hm]⟩
      · right
        exact ⟨v, List.mem_cons_of_mem _ hv, h⟩

/-- In exact arithmetic the quotient of an element by `max / 127` truncates to
a code in `[-127, 127]` whose product with the scale is no larger than the
element and less than one scale away from it. -/
theorem exact_quotient_spec (v M : ℚ) (hM : 0 < M) (hv : |v| ≤ M) :
    ∃ q, exact_quotient v (M / 127) = some q ∧ -127 ≤ q ∧ q ≤ 127 ∧
      |(q : ℚ) * (M / 127)| ≤ |v| ∧ |v - (q : ℚ) * (M / 127)| < M / 127 ∧
      (|v| = M → q = 127 ∨ q = -127) := by
  have hs : 0 < M / 127 := by positivity
  have hs0 : M / 127 ≠ 0 := ne_of_gt hs
  set s := M / 127 with hsdef
  set x := v / s with hxdef
  have hvx : v = x * s := by
    rw [hxdef]
    field_simp
  have hMs : M = 127 * s := by
    rw [hsdef]
    ring
  have hx : |x| ≤ 127 := by
    have h1 : |x| * s ≤ 127 * s := by
      rw [← hMs, ← abs_of_pos hs, ← abs_mul, ← hvx]
      exact hv
    exact le_of_mul_le_mul_right h1 hs
  obtain ⟨hxl, hxu⟩ := abs_le.mp hx
  by_cases h0 : 0 ≤ x
  · have hfl : (⌊x⌋ : ℚ) ≤ x := Int.floor_le x
    have hfu : x < ⌊x⌋ + 1 := Int.lt_floor_add_one x
    have hf0 : 0 ≤ ⌊x⌋ := Int.floor_nonneg.mpr h0
    have hf127 : ⌊x⌋ ≤ 127 := by
      have : (⌊x⌋ : ℚ) ≤ 127 := le_trans hfl hxu
      exact_mod_cast this
    have hf0q : (0 : ℚ) ≤ ⌊x⌋ := by exact_mod_cast hf0
    refine ⟨⌊x⌋, ?_, by omega, hf127, ?_, ?_, ?_⟩
    · unfold exact_quotient exact_to_i32
      rw [if_neg hs0]
      simp only [← hxdef, if_pos h0]
      rw [if_pos ⟨by omega, by omega⟩]
    · rw [hvx, abs_mul, abs_mul]
      apply mul_le_mul_of_nonneg_right _ (abs_nonneg s)
      rw [abs_of_nonneg hf0q, abs_of_nonneg h0]
      exact hfl
    · have : v - (⌊x⌋ : ℚ) * s = (x - ⌊x⌋) * s := by
        rw [hvx]
        ring
      rw [this, abs_mul, abs_of_pos hs, abs_of_nonneg (by linarith)]
      nlinarith
    · intro heq
      left
      have hx127 : x = 127 := by
        have h1 : |x| * s = 127 * s := by
          rw [← hMs, ← heq, hvx, abs_mul, abs_of_pos hs]
        have h2 : |x| = 127 := mul_right_cancel₀ hs0 h1
        rwa [abs_of_nonneg h0] at h2
      rw [hx127]
      exact Int.floor_eq_iff.mpr ⟨by norm_num, by norm_num⟩
  · have hneg : x < 0 := not_le.mp h0
    have hcl : x ≤ (⌈x⌉ : ℚ) := Int.le_ceil x
    have hcu : (⌈x⌉ : ℚ) < x + 1 := Int.ceil_lt_add_one x
    have hc0 : ⌈x⌉ ≤ 0 := Int.ceil_le.mpr (by exact_mod_cast le_of_lt hneg)
    have hc127 : -127 ≤ ⌈x⌉ := by
      have : (-127 : ℚ) ≤ ⌈x⌉ := le_trans hxl hcl
      exact_mod_cast this
    have hc0q : (⌈x⌉ : ℚ) ≤ 0 := by exact_mod_cast hc0
    refine ⟨⌈x⌉, ?_, hc127, by omega, ?_, ?_, ?_⟩
    · unfold exact_quotient exact_to_i32
      rw [if_neg hs0]
      simp only [← hxdef, if_neg h0]
      rw [if_pos ⟨by omega, by omega⟩]
    · rw [hvx, abs_mul, abs_mul]
      apply mul_le_mul_of_nonneg_right _ (abs_nonneg s)
      rw [abs_of_nonpos hc0q, abs_of_neg hneg]
      linarith
    · have : v - (⌈x⌉ : ℚ) * s = (x - ⌈x⌉) * s := by
        rw [hvx]
        ring
      rw [this, abs_mul, abs_of_pos hs, abs_of_nonpos (by linarith)]
      nlinarith
    · intro heq
      right
      have hx127 : x = -127 := by
        have h1 : |x| * s = 127 * s := by
          rw [← hMs, ← heq, hvx, abs_mul, abs_of_pos hs]
        have h2 : |x| = 127 := mul_right_cancel₀ hs0 h1
        rw [abs_of_neg hneg] at h2
        linarith
      rw [hx127]
      exact Int.ceil_eq_iff.mpr ⟨by norm_num, by norm_num⟩

theorem exact_store_loop_ok (p : List ℚ) (scale : ℚ) (hlen : p.length < 2 ^ 16)
    (hdef : ∀ v ∈ p, ∃ q, exact_quotient v scale = some q)
    (fuel i : Nat) (out : List Int) (hi : i ≤ p.length) (hout : out.length = p.length)
    (hfuel : p.length - i < fuel) :
    ∃ out', exact_store_loop p p.length scale fuel i out = .ok out' ∧
      out'.length = p.length ∧ (∀ k, k < i → out'[k]? = out[k]?) ∧
      ∀ k (hk : k < p.length), i ≤ k →
        ∃ q, exact_quotient p[k] scale = some q ∧ out'[k]? = some (clamp_q q) := by
  induction fuel generalizing i out with
  | zero => omega
  | succ f ih =>
    unfold exact_store_loop
    by_cases hlt : i < p.length
    · rw [if_pos hlt]
      have hget : p[i]? = some p[i] := List.getElem?_eq_getElem hlt
      obtain ⟨q, hq⟩ := hdef _ (List.getElem_mem hlt)
      rw [hget]
      simp only [hq]
      rw [if_pos (by omega), Nat.mod_eq_of_lt (by omega), toInt8_clamp_q]
      obtain ⟨out', h1, h2, h3, h4⟩ :=
        ih (i + 1) (out.set i (clamp_q q)) (by omega) (by simp [hout]) (by omega)
      refine ⟨out', h1, h2, ?_, ?_⟩
      · intro k hk
        rw [h3 k (by omega), List.getElem?_set_ne (by omega)]
      · intro k hk hik
        by_cases hki : k = i
        · subst hki
          refine ⟨q, hq, ?_⟩
          rw [h3 k (by omega), List.getElem?_set_self (by omega)]
        · exact h4 k hk (by omega)
    · rw [if_neg hlt]
      refine ⟨out, rfl, hout, fun _ _ => rfl, ?_⟩
      intro k hk hik
      omega

/-- C18: in exact (rational) arithmetic, for a source with at least one
nonzero element and an Int8 destination of equal length,
`quantize_f32_to_int8` completes with `scale = max_abs / 127 > 0` and
`zero_point = 0`; at every index the conversion yields a code in `[-127, 127]`
that the clamp leaves as it is and that is the stored code; an element of
largest magnitude gets `127` or `-127`; and `tensor_get` of the destination
returns a value of magnitude at most `|source[i]|` that differs from
`source[i]` by less than `scale`. -/
theorem exact_quantize_contract (p : List ℚ) (dst : ExactTensor)
    (hsize : dst.size < 2 ^ 16) (hlen : p.length = dst.size)
    (hdata : dst.data.length = dst.size) (hnz : ∃ v ∈ p, v ≠ 0) :
    ∃ d, exact_quantize_f32_to_int8 p p.length dst = .ok d ∧
      d.scale = exact_max_abs p / 127 ∧ 0 < d.scale ∧ d.zero_point = 0 ∧
      d.size = dst.size ∧ d.data.length = dst.size ∧
      (∀ v ∈ p, |v| ≤ exact_max_abs p) ∧ (∃ v ∈ p, |v| = exact_max_abs p) ∧
      ∀ i (hi : i < p.length),
        ∃ q, exact_quotient p[i] d.scale = some q ∧ clamp_q q = q ∧
          d.data[i]? = some q ∧ -127 ≤ q ∧ q ≤ 127 ∧
          (|p[i]| = exact_max_abs p → q = 127 ∨ q = -127) ∧
          ∃ g, exact_tensor_get d i = .ok g ∧ |g| ≤ |p[i]| ∧ |p[i] - g| < d.scale := by
  have hp16 : p.length < 2 ^ 16 := by omega
  obtain ⟨hf1, hf2, hf3⟩ := exact_foldl_max p 0
  have hMdef : p.foldl (fun m v => max m |v|) 0 = exact_max_abs p := rfl
  rw [hMdef] at hf1 hf2 hf3
  have hMpos : 0 < exact_max_abs p := by
    obtain ⟨v, hv, hv0⟩ := hnz
    exact lt_of_lt_of_le (abs_pos.mpr hv0) (hf2 v hv)
  have hattain : ∃ v ∈ p, |v| = exact_max_abs p := by
    rcases hf3 with h | ⟨v, hv, h⟩
    · rw [h] at hMpos
      exact absurd hMpos (lt_irrefl 0)
    · exact ⟨v, hv, h.symm⟩
  have hmax : exact_max_loop p p.length (2 ^ 16 + 1) 0 0 = .ok (exact_max_abs p) := by
    rw [exact_max_loop_eq p hp16 _ 0 0 (by omega) (by omega)]
    rfl
  have hdef : ∀ v ∈ p, ∃ q, exact_quotient v (exact_max_abs p / 127) = some q := by
    intro v hv
    obtain ⟨q, hq, -⟩ := exact_quotient_spec v _ hMpos (hf2 v hv)
    exact ⟨q, hq⟩
  obtain ⟨out', ho1, ho2, -, ho4⟩ := exact_store_loop_ok p (exact_max_abs p / 127) hp16 hdef
    (2 ^ 16 + 1) 0 dst.data (by omega) (by omega) (by omega)
  refine ⟨{ dst with scale := exact_max_abs p / 127, zero_point := 0, data := out' },
    ?_, rfl, by positivity, rfl, rfl, by simp only; omega, hf2, hattain, ?_⟩
  · unfold exact_quantize_f32_to_int8
    rw [hmax]
    simp only
    rw [ho1]
  · intro i hi
    obtain ⟨q, hq, hq1, hq2, hq3, hq4, hq5⟩ :=
      exact_quotient_spec p[i] _ hMpos (hf2 _ (List.getElem_mem hi))
    obtain ⟨q', hq', hst⟩ := ho4 i hi (by omega)
    rw [hq] at hq'
    cases hq'
    have hclamp : clamp_q q = q := by
      unfold clamp_q
      simp only
      split_ifs <;> omega
    rw [hclamp] at hst
    refine ⟨q, hq, hclamp, hst, hq1, hq2, hq5, (q : ℚ) * (exact_max_abs p / 127), ?_, hq3, hq4⟩
    unfold exact_tensor_get
    simp only
    rw [if_neg (by omega), hst]
    simp

/-- Witness for C18: the source `[3, -6, 3/2]`. -/
theorem exact_quantize_contract_witness :
    ∃ d, exact_quantize_f32_to_int8 [3, -6, 3 / 2] 3 ⟨3, 1, 0, [0, 0, 0]⟩ = .ok d ∧
      d.scale = exact_max_abs [3, -6, 3 / 2] / 127 ∧ 0 < d.scale ∧ d.zero_point = 0 ∧
      d.size = 3 ∧ d.data.length = 3 := by
  obtain ⟨d, h1, h2, h3, h4, h5, h6, -⟩ :=
    exact_quantize_contract [3, -6, 3 / 2] ⟨3, 1, 0, [0, 0, 0]⟩ (by norm_num) rfl rfl
      ⟨3, by simp, by norm_num⟩
  exact ⟨d, h1, h2, h3, h4, h5, h6⟩

/-- In float32 arithmetic the statements of C18 on the largest element and on
the clamp do not carry over: for the one-element source `1328634.75`
(`0x49A22FD6`) the rounded scale is `0x462376C4` and the stored code is `126`;
for the subnormal source `0x000000BE` the scale rounds to the smallest
subnormal, the converted quotient is `190`, and the clamp stores `127`. -/
theorem quantize_float32_deviation :
    quantize_f32_to_int8 ⟨.TYPE_F32, 1, 0x3F800000, 0, .f32 [0x49A22FD6]⟩
        ⟨.TYPE_INT8, 1, 0x3F800000, 0, .i8 [0]⟩
      = .ok ⟨.TYPE_INT8, 1, 0x462376C4, 0, .i8 [126]⟩ ∧
    quantize_scale [0x000000BE] = 0x00000001 ∧
    f32_to_i32 (f32_div 0x000000BE 0x00000001) = some 190 ∧
    clamp_q 190 = 127 ∧
    quantize_f32_to_int8 ⟨.TYPE_F32, 1, 0x3F800000, 0, .f32 [0x000000BE]⟩
        ⟨.TYPE_INT8, 1, 0x3F800000, 0, .i8 [0]⟩
      = .ok ⟨.TYPE_INT8, 1, 0x00000001, 0, .i8 [127]⟩ := by
  refine ⟨by rfl, by decide, by decide, by decide, by rfl⟩

end DynTensor
